import Mathlib

/-!
Verification of the tgstation public log parser core against its spec.

The Rust sources are shallowly embedded over `List Char` / `String`:

* `src/parsers/ip_filtering.rs` — `filter_ips`, a regex `replace_all` of
  IPv4-shaped substrings by `-censored-`.  The Rust `regex` crate uses
  leftmost-first (Perl-like alternation priority) semantics; for this
  particular pattern ordered-alternative parsing without cross-alternative
  backtracking is equivalent (each alternation branch consumes only digits,
  and every branch point is followed by a literal `.` or end of pattern, so
  a failed continuation can never be rescued by a different branch).  The
  embedding `matchIp` implements that ordered-alternative parse.

Panics in the Rust code (`expect`, slice/index out of bounds, integer
underflow) are modelled by `Option.none` results.
-/

namespace TgLog

/-- `"-censored-"`, the replacement text of `filter_ips`. -/
def censoredIp : List Char := ['-', 'c', 'e', 'n', 's', 'o', 'r', 'e', 'd', '-']

/-- Alternation branch `25[0-5]` of the IPv4 octet. -/
def alt25x : List Char → Option (List Char)
  | a :: b :: c :: r => if a = '2' ∧ b = '5' ∧ '0' ≤ c ∧ c ≤ '5' then some r else none
  | _ => none

/-- Alternation branch `2[0-4][0-9]`. -/
def alt2xx : List Char → Option (List Char)
  | a :: b :: c :: r => if a = '2' ∧ '0' ≤ b ∧ b ≤ '4' ∧ c.isDigit then some r else none
  | _ => none

/-- Alternation branch `1[0-9][0-9]`. -/
def alt1xx : List Char → Option (List Char)
  | a :: b :: c :: r => if a = '1' ∧ b.isDigit ∧ c.isDigit then some r else none
  | _ => none

/-- Alternation branch `[1-9][0-9]` (used by the first three octets). -/
def altXx : List Char → Option (List Char)
  | a :: b :: r => if '1' ≤ a ∧ a ≤ '9' ∧ b.isDigit then some r else none
  | _ => none

/-- Alternation branch `[1-9][0-9]?` (greedy, used by the last octet). -/
def altXopt : List Char → Option (List Char)
  | a :: b :: r =>
      if '1' ≤ a ∧ a ≤ '9' then (if b.isDigit then some r else some (b :: r)) else none
  | [a] => if '1' ≤ a ∧ a ≤ '9' then some [] else none
  | [] => none

/-- Alternation branch `[0-9]`. -/
def altX : List Char → Option (List Char)
  | a :: r => if a.isDigit then some r else none
  | [] => none

/-- Literal `\.` following each of the first three octets. -/
def expectDot : List Char → Option (List Char)
  | c :: r => if c = '.' then some r else none
  | [] => none

/-- One step of `(?:(?:25[0-5]|2[0-4][0-9]|1[0-9][0-9]|[1-9][0-9]|[0-9])\.)`:
the first alternation branch (in priority order) whose octet is followed by
a literal `.` wins, exactly as regex backtracking would resolve it. -/
def octetDot (l : List Char) : Option (List Char) :=
  match (alt25x l).bind expectDot with
  | some r => some r
  | none =>
    match (alt2xx l).bind expectDot with
    | some r => some r
    | none =>
      match (alt1xx l).bind expectDot with
      | some r => some r
      | none =>
        match (altXx l).bind expectDot with
        | some r => some r
        | none => (altX l).bind expectDot

/-- The final octet `(?:25[0-5]|2[0-4][0-9]|1[0-9][0-9]|[1-9][0-9]?|[0-9])`:
first branch (in priority order) that matches wins. -/
def octetLast (l : List Char) : Option (List Char) :=
  match alt25x l with
  | some r => some r
  | none =>
    match alt2xx l with
    | some r => some r
    | none =>
      match alt1xx l with
      | some r => some r
      | none =>
        match altXopt l with
        | some r => some r
        | none => altX l

/-- Attempt to match `IP_REGEX` at the head of `l`; returns the remainder
after the match. -/
def matchIp (l : List Char) : Option (List Char) :=
  (octetDot l).bind fun r1 =>
    (octetDot r1).bind fun r2 =>
      (octetDot r2).bind fun r3 => octetLast r3

/-- The language of one octet of `IP_REGEX` (both octet alternations denote
the same set of strings). -/
def octetStr (u : List Char) : Prop :=
  (∃ c, u = ['2', '5', c] ∧ '0' ≤ c ∧ c ≤ '5') ∨
  (∃ b c, u = ['2', b, c] ∧ '0' ≤ b ∧ b ≤ '4' ∧ c.isDigit) ∨
  (∃ b c, u = ['1', b, c] ∧ b.isDigit ∧ c.isDigit) ∨
  (∃ a b, u = [a, b] ∧ '1' ≤ a ∧ a ≤ '9' ∧ b.isDigit) ∨
  (∃ a, u = [a] ∧ a.isDigit)

/-- The language of `IP_REGEX`: four octets separated by dots. -/
def ipStr (u : List Char) : Prop :=
  ∃ o1 o2 o3 o4, octetStr o1 ∧ octetStr o2 ∧ octetStr o3 ∧ octetStr o4 ∧
    u = o1 ++ '.' :: (o2 ++ '.' :: (o3 ++ '.' :: o4))

theorem isDigit_iff {c : Char} : c.isDigit = true ↔ (('0' : Char) ≤ c ∧ c ≤ ('9' : Char)) := by
  show (decide (('0' : Char).val ≤ c.val) && decide (c.val ≤ ('9' : Char).val)) = true ↔ _
  simp only [Bool.and_eq_true, decide_eq_true_eq]
  exact ⟨fun h => h, fun h => h⟩

theorem octetStr_chars {u : List Char} (h : octetStr u) : ∀ c ∈ u, c.isDigit := by
  rcases h with ⟨c, rfl, h1, h2⟩ | ⟨b, c, rfl, h1, h2, h3⟩ | ⟨b, c, rfl, h1, h2⟩ |
    ⟨a, b, rfl, h1, h2, h3⟩ | ⟨a, rfl, h1⟩ <;> intro x hx <;> simp at hx
  · rcases hx with rfl | rfl | rfl
    · decide
    · decide
    · exact isDigit_iff.mpr ⟨h1, h2.trans (by decide : ('5' : Char) ≤ '9')⟩
  · rcases hx with rfl | rfl | rfl
    · decide
    · exact isDigit_iff.mpr ⟨h1, h2.trans (by decide : ('4' : Char) ≤ '9')⟩
    · exact h3
  · rcases hx with rfl | rfl | rfl
    · decide
    · exact h1
    · exact h2
  · rcases hx with rfl | rfl
    · exact isDigit_iff.mpr ⟨le_trans (by decide : ('0' : Char) ≤ '1') h1, h2⟩
    · exact h3
  · rcases hx with rfl
    exact h1

theorem octetStr_ne_nil {u : List Char} (h : octetStr u) : u ≠ [] := by
  rcases h with ⟨c, rfl, -⟩ | ⟨b, c, rfl, -⟩ | ⟨b, c, rfl, -⟩ | ⟨a, b, rfl, -⟩ | ⟨a, rfl, -⟩ <;>
    simp

theorem octetStr_head_digit {u : List Char} (h : octetStr u) :
    ∃ c r, u = c :: r ∧ c.isDigit := by
  rcases h with ⟨c, rfl, h1, h2⟩ | ⟨b, c, rfl, h1, h2, h3⟩ | ⟨b, c, rfl, h1, h2⟩ |
    ⟨a, b, rfl, h1, h2, h3⟩ | ⟨a, rfl, h1⟩
  · exact ⟨_, _, rfl, by decide⟩
  · exact ⟨_, _, rfl, by decide⟩
  · exact ⟨_, _, rfl, by decide⟩
  · exact ⟨_, _, rfl, isDigit_iff.mpr ⟨le_trans (by decide : ('0' : Char) ≤ '1') h1, h2⟩⟩
  · exact ⟨_, _, rfl, h1⟩

theorem expectDot_sound {l r : List Char} (h : expectDot l = some r) : l = '.' :: r := by
  match l, h with
  | c :: t, h =>
    simp only [expectDot] at h
    split_ifs at h with hc
    cases h
    rw [hc]

theorem alt25x_sound {l r : List Char} (h : alt25x l = some r) :
    ∃ c, l = '2' :: '5' :: c :: r ∧ '0' ≤ c ∧ c ≤ '5' := by
  match l, h with
  | a :: b :: c :: t, h =>
    simp only [alt25x] at h
    split_ifs at h with hc
    cases h
    rcases hc with ⟨rfl, rfl, h1, h2⟩
    exact ⟨c, rfl, h1, h2⟩

theorem alt2xx_sound {l r : List Char} (h : alt2xx l = some r) :
    ∃ b c, l = '2' :: b :: c :: r ∧ '0' ≤ b ∧ b ≤ '4' ∧ c.isDigit := by
  match l, h with
  | a :: b :: c :: t, h =>
    simp only [alt2xx] at h
    split_ifs at h with hc
    cases h
    rcases hc with ⟨rfl, h1, h2, h3⟩
    exact ⟨b, c, rfl, h1, h2, h3⟩

theorem alt1xx_sound {l r : List Char} (h : alt1xx l = some r) :
    ∃ b c, l = '1' :: b :: c :: r ∧ b.isDigit ∧ c.isDigit := by
  match l, h with
  | a :: b :: c :: t, h =>
    simp only [alt1xx] at h
    split_ifs at h with hc
    cases h
    rcases hc with ⟨rfl, h1, h2⟩
    exact ⟨b, c, rfl, h1, h2⟩

theorem altXx_sound {l r : List Char} (h : altXx l = some r) :
    ∃ a b, l = a :: b :: r ∧ '1' ≤ a ∧ a ≤ '9' ∧ b.isDigit := by
  match l, h with
  | a :: b :: t, h =>
    simp only [altXx] at h
    split_ifs at h with hc
    cases h
    rcases hc with ⟨h1, h2, h3⟩
    exact ⟨a, b, rfl, h1, h2, h3⟩

theorem altXopt_sound {l r : List Char} (h : altXopt l = some r) :
    ∃ u, (octetStr u) ∧ l = u ++ r := by
  match l, h with
  | [a], h =>
    simp only [altXopt] at h
    split_ifs at h with hc
    cases h
    exact ⟨[a], Or.inr (Or.inr (Or.inr (Or.inr ⟨a, rfl,
      isDigit_iff.mpr ⟨le_trans (by decide : ('0' : Char) ≤ '1') hc.1, hc.2⟩⟩))), rfl⟩
  | a :: b :: t, h =>
    simp only [altXopt] at h
    split_ifs at h with hc hb
    · cases h
      exact ⟨[a, b], Or.inr (Or.inr (Or.inr (Or.inl ⟨a, b, rfl, hc.1, hc.2, hb⟩))), rfl⟩
    · cases h
      exact ⟨[a], Or.inr (Or.inr (Or.inr (Or.inr ⟨a, rfl,
        isDigit_iff.mpr ⟨le_trans (by decide : ('0' : Char) ≤ '1') hc.1, hc.2⟩⟩))), rfl⟩

theorem altX_sound {l r : List Char} (h : altX l = some r) :
    ∃ a, l = a :: r ∧ a.isDigit := by
  match l, h with
  | a :: t, h =>
    simp only [altX] at h
    split_ifs at h with hc
    cases h
    exact ⟨a, rfl, hc⟩

theorem octetDot_sound {l r : List Char} (h : octetDot l = some r) :
    ∃ u, octetStr u ∧ l = u ++ '.' :: r := by
  have ofBind : ∀ {f : List Char → Option (List Char)},
      (∀ {m r' : List Char}, f m = some r' → ∃ u, octetStr u ∧ m = u ++ r') →
      ∀ {r' : List Char}, (f l).bind expectDot = some r' → ∃ u, octetStr u ∧ l = u ++ '.' :: r' := by
    intro f hf r' hb
    rcases Option.bind_eq_some.mp hb with ⟨m, hm, hd⟩
    rcases hf hm with ⟨u, hu, rfl⟩
    exact ⟨u, hu, by rw [expectDot_sound hd]⟩
  unfold octetDot at h
  split at h
  · next heq =>
    cases h
    refine ofBind ?_ heq
    intro m r' hm
    rcases alt25x_sound hm with ⟨c, rfl, h1, h2⟩
    exact ⟨['2', '5', c], Or.inl ⟨c, rfl, h1, h2⟩, rfl⟩
  · split at h
    · next heq =>
      cases h
      refine ofBind ?_ heq
      intro m r' hm
      rcases alt2xx_sound hm with ⟨b, c, rfl, h1, h2, h3⟩
      exact ⟨['2', b, c], Or.inr (Or.inl ⟨b, c, rfl, h1, h2, h3⟩), rfl⟩
    · split at h
      · next heq =>
        cases h
        refine ofBind ?_ heq
        intro m r' hm
        rcases alt1xx_sound hm with ⟨b, c, rfl, h1, h2⟩
        exact ⟨['1', b, c], Or.inr (Or.inr (Or.inl ⟨b, c, rfl, h1, h2⟩)), rfl⟩
      · split at h
        · next heq =>
          cases h
          refine ofBind ?_ heq
          intro m r' hm
          rcases altXx_sound hm with ⟨a, b, rfl, h1, h2, h3⟩
          exact ⟨[a, b], Or.inr (Or.inr (Or.inr (Or.inl ⟨a, b, rfl, h1, h2, h3⟩))), rfl⟩
        · refine ofBind ?_ h
          intro m r' hm
          rcases altX_sound hm with ⟨a, rfl, h1⟩
          exact ⟨[a], Or.inr (Or.inr (Or.inr (Or.inr ⟨a, rfl, h1⟩))), rfl⟩

theorem octetLast_sound {l r : List Char} (h : octetLast l = some r) :
    ∃ u, octetStr u ∧ l = u ++ r := by
  unfold octetLast at h
  split at h
  · next heq =>
    cases h
    rcases alt25x_sound heq with ⟨c, rfl, h1, h2⟩
    exact ⟨['2', '5', c], Or.inl ⟨c, rfl, h1, h2⟩, rfl⟩
  · split at h
    · next heq =>
      cases h
      rcases alt2xx_sound heq with ⟨b, c, rfl, h1, h2, h3⟩
      exact ⟨['2', b, c], Or.inr (Or.inl ⟨b, c, rfl, h1, h2, h3⟩), rfl⟩
    · split at h
      · next heq =>
        cases h
        rcases alt1xx_sound heq with ⟨b, c, rfl, h1, h2⟩
        exact ⟨['1', b, c], Or.inr (Or.inr (Or.inl ⟨b, c, rfl, h1, h2⟩)), rfl⟩
      · split at h
        · next heq =>
          cases h
          exact altXopt_sound heq
        · rcases altX_sound h with ⟨a, rfl, h1⟩
          exact ⟨[a], Or.inr (Or.inr (Or.inr (Or.inr ⟨a, rfl, h1⟩))), rfl⟩

theorem matchIp_sound {l r : List Char} (h : matchIp l = some r) :
    ∃ u, ipStr u ∧ l = u ++ r := by
  unfold matchIp at h
  rcases Option.bind_eq_some.mp h with ⟨r1, h1, h⟩
  rcases Option.bind_eq_some.mp h with ⟨r2, h2, h⟩
  rcases Option.bind_eq_some.mp h with ⟨r3, h3, h4⟩
  rcases octetDot_sound h1 with ⟨o1, ho1, rfl⟩
  rcases octetDot_sound h2 with ⟨o2, ho2, rfl⟩
  rcases octetDot_sound h3 with ⟨o3, ho3, rfl⟩
  rcases octetLast_sound h4 with ⟨o4, ho4, rfl⟩
  refine ⟨o1 ++ '.' :: (o2 ++ '.' :: (o3 ++ '.' :: o4)), ⟨o1, o2, o3, o4, ho1, ho2, ho3, ho4, rfl⟩, ?_⟩
  simp

theorem ipStr_ne_nil {u : List Char} (h : ipStr u) : u ≠ [] := by
  rcases h with ⟨o1, o2, o3, o4, h1, h2, h3, h4, rfl⟩
  rcases octetStr_head_digit h1 with ⟨c, r, rfl, -⟩
  simp

theorem ipStr_chars {u : List Char} (h : ipStr u) :
    ∀ c ∈ u, c.isDigit ∨ c = '.' := by
  rcases h with ⟨o1, o2, o3, o4, h1, h2, h3, h4, rfl⟩
  intro c hc
  simp only [List.mem_append, List.mem_cons] at hc
  rcases hc with hc | rfl | hc | rfl | hc | rfl | hc
  · exact Or.inl (octetStr_chars h1 c hc)
  · exact Or.inr rfl
  · exact Or.inl (octetStr_chars h2 c hc)
  · exact Or.inr rfl
  · exact Or.inl (octetStr_chars h3 c hc)
  · exact Or.inr rfl
  · exact Or.inl (octetStr_chars h4 c hc)

theorem matchIp_lt {l r : List Char} (h : matchIp l = some r) : r.length < l.length := by
  rcases matchIp_sound h with ⟨u, hu, rfl⟩
  have : u ≠ [] := ipStr_ne_nil hu
  have : 0 < u.length := List.length_pos.mpr this
  simp [List.length_append]
  omega

theorem octetDot_complete {u : List Char} (h : octetStr u) (v : List Char) :
    octetDot (u ++ '.' :: v) = some v := by
  have hd1 : ¬ (('0' : Char) ≤ '.') := by decide
  have hd2 : ('.' : Char).isDigit = false := by decide
  have hd3 : ('.' : Char) ≠ '5' := by decide
  have hd4 : ('1' : Char) ≠ '2' := by decide
  rcases h with ⟨c, rfl, h1, h2⟩ | ⟨b, c, rfl, h1, h2, h3⟩ | ⟨b, c, rfl, h1, h2⟩ |
    ⟨a, b, rfl, h1, h2, h3⟩ | ⟨a, rfl, h1⟩
  · simp [octetDot, alt25x, expectDot, h1, h2]
  · have hb5 : b ≠ '5' := by
      intro hb
      subst hb
      exact absurd h2 (by decide)
    simp [octetDot, alt25x, alt2xx, expectDot, h1, h2, h3, hb5]
  · simp [octetDot, alt25x, alt2xx, alt1xx, expectDot, h1, h2, hd4]
  · simp [octetDot, alt25x, alt2xx, alt1xx, altXx, expectDot, h1, h2, h3, hd1, hd2]
  · cases v with
    | nil => simp [octetDot, alt25x, alt2xx, alt1xx, altXx, altX, expectDot, h1, hd1, hd2]
    | cons w v' =>
      simp [octetDot, alt25x, alt2xx, alt1xx, altXx, altX, expectDot, h1, hd1, hd2, hd3]

theorem octetLast_isSome {c : Char} (h : c.isDigit) (r : List Char) :
    (octetLast (c :: r)).isSome := by
  unfold octetLast
  split
  · simp
  · split
    · simp
    · split
      · simp
      · split
        · simp
        · cases r with
          | nil => simp [altX, h]
          | cons b t => simp [altX, h]

theorem matchIp_complete {u : List Char} (h : ipStr u) (v : List Char) :
    (matchIp (u ++ v)).isSome := by
  rcases h with ⟨o1, o2, o3, o4, h1, h2, h3, h4, rfl⟩
  have hre : (o1 ++ '.' :: (o2 ++ '.' :: (o3 ++ '.' :: o4))) ++ v =
      o1 ++ '.' :: (o2 ++ '.' :: (o3 ++ '.' :: (o4 ++ v))) := by simp
  rw [hre]
  unfold matchIp
  rw [octetDot_complete h1]
  simp only [Option.some_bind]
  rw [octetDot_complete h2]
  simp only [Option.some_bind]
  rw [octetDot_complete h3]
  simp only [Option.some_bind]
  rcases octetStr_head_digit h4 with ⟨c, r, rfl, hc⟩
  rw [List.cons_append]
  exact octetLast_isSome hc (r ++ v)

/-- `IP_REGEX.replace_all(contents, "-censored-")`: scan left to right; at
each position, if the regex matches, emit `-censored-` and resume after the
match, otherwise keep the character. -/
def replaceAll : List Char → List Char
  | [] => []
  | c :: rest =>
    match h : matchIp (c :: rest) with
    | some r => censoredIp ++ replaceAll r
    | none => c :: replaceAll rest
termination_by l => l.length
decreasing_by
  · exact matchIp_lt h
  · simp

theorem replaceAll_nil : replaceAll [] = [] := by
  rw [replaceAll]

theorem replaceAll_cons_some {c : Char} {rest r : List Char} (h : matchIp (c :: rest) = some r) :
    replaceAll (c :: rest) = censoredIp ++ replaceAll r := by
  rw [replaceAll]
  split
  · next r' heq =>
    rw [h] at heq
    cases heq
    rfl
  · next heq =>
    rw [h] at heq
    cases heq

theorem replaceAll_cons_none {c : Char} {rest : List Char} (h : matchIp (c :: rest) = none) :
    replaceAll (c :: rest) = c :: replaceAll rest := by
  rw [replaceAll]
  split
  · next r' heq =>
    rw [h] at heq
    cases heq
  · rfl

/-- No decomposition of `s` contains an `IP_REGEX`-shaped substring. -/
def NoIp (s : List Char) : Prop := ¬ ∃ a u b, ipStr u ∧ s = a ++ u ++ b

theorem noIp_nil : NoIp [] := by
  rintro ⟨a, u, b, hu, heq⟩
  rcases List.append_eq_nil.mp (List.append_eq_nil.mp heq.symm).1 with ⟨-, hu2⟩
  exact ipStr_ne_nil hu hu2

theorem noIp_tail {c : Char} {s : List Char} (h : NoIp (c :: s)) : NoIp s := by
  rintro ⟨a, u, b, hu, rfl⟩
  exact h ⟨c :: a, u, b, hu, by simp⟩

theorem ipStr_head {u : List Char} (h : ipStr u) :
    ∃ d u2, u = d :: u2 ∧ d.isDigit := by
  rcases h with ⟨o1, o2, o3, o4, h1, h2, h3, h4, rfl⟩
  rcases octetStr_head_digit h1 with ⟨c, r, rfl, hc⟩
  exact ⟨c, r ++ '.' :: (o2 ++ '.' :: (o3 ++ '.' :: o4)), by simp, hc⟩

theorem noIp_append_left (x : List Char) (hx : NoIp x) :
    ∀ w : List Char, (∀ c ∈ w, ¬(c.isDigit = true ∨ c = '.')) → NoIp (w ++ x) := by
  intro w
  induction w with
  | nil =>
    intro _
    simpa using hx
  | cons ch w2 ih =>
    intro hw
    rintro ⟨a, u, b, hu, heq⟩
    rcases ipStr_head hu with ⟨d, u2, rfl, hd⟩
    match a, heq with
    | [], heq =>
      rw [List.nil_append, List.cons_append, List.cons_append] at heq
      injection heq with e1 e2
      exact hw ch (List.mem_cons_self _ _) (by rw [e1]; exact Or.inl hd)
    | a0 :: a2, heq =>
      rw [List.cons_append, List.cons_append, List.cons_append] at heq
      injection heq with e1 e2
      refine ih (fun c hc => hw c (List.mem_cons_of_mem _ hc)) ⟨a2, d :: u2, b, hu, ?_⟩
      rw [e2]

theorem prefix_replaceAll :
    ∀ (n : Nat) (s : List Char), s.length ≤ n → ∀ w t : List Char, replaceAll s = w ++ t →
      (∀ c ∈ w, c.isDigit = true ∨ c = '.') → ∃ t2, s = w ++ t2 := by
  intro n
  induction n with
  | zero =>
    intro s hs w t heq hw
    rw [List.eq_nil_of_length_eq_zero (Nat.le_zero.mp hs)] at heq ⊢
    rw [replaceAll_nil] at heq
    rcases List.append_eq_nil.mp heq.symm with ⟨rfl, rfl⟩
    exact ⟨[], rfl⟩
  | succ n ih =>
    intro s hs w t heq hw
    match s with
    | [] =>
      rw [replaceAll_nil] at heq
      rcases List.append_eq_nil.mp heq.symm with ⟨rfl, rfl⟩
      exact ⟨[], rfl⟩
    | c :: rest =>
      cases hm : matchIp (c :: rest) with
      | some r =>
        rw [replaceAll_cons_some hm] at heq
        match w, heq with
        | [], heq => exact ⟨c :: rest, rfl⟩
        | wc :: w2, heq =>
          rw [show censoredIp ++ replaceAll r = '-' ::
            (['c', 'e', 'n', 's', 'o', 'r', 'e', 'd', '-'] ++ replaceAll r) from rfl] at heq
          rw [List.cons_append] at heq
          injection heq with e1 e2
          have := hw wc (List.mem_cons_self _ _)
          rw [← e1] at this
          rcases this with hx | hx
          · exact absurd hx (by decide)
          · exact absurd hx (by decide)
      | none =>
        rw [replaceAll_cons_none hm] at heq
        match w, heq with
        | [], heq => exact ⟨c :: rest, rfl⟩
        | wc :: w2, heq =>
          rw [List.cons_append] at heq
          injection heq with e1 e2
          have hlen : rest.length ≤ n := by
            simp only [List.length_cons] at hs
            omega
          rcases ih rest hlen w2 t e2 (fun c2 hc => hw c2 (List.mem_cons_of_mem _ hc)) with ⟨t2, ht⟩
          refine ⟨t2, ?_⟩
          rw [List.cons_append, ← e1, ht]

theorem noIp_replaceAll_aux :
    ∀ (n : Nat) (s : List Char), s.length ≤ n → NoIp (replaceAll s) := by
  intro n
  induction n with
  | zero =>
    intro s hs
    rw [List.eq_nil_of_length_eq_zero (Nat.le_zero.mp hs), replaceAll_nil]
    exact noIp_nil
  | succ n ih =>
    intro s hs
    match s with
    | [] =>
      rw [replaceAll_nil]
      exact noIp_nil
    | c :: rest =>
      cases hm : matchIp (c :: rest) with
      | some r =>
        rw [replaceAll_cons_some hm]
        have hr : r.length ≤ n := by
          have := matchIp_lt hm
          simp only [List.length_cons] at this hs
          omega
        exact noIp_append_left (replaceAll r) (ih r hr) censoredIp (by decide)
      | none =>
        rw [replaceAll_cons_none hm]
        have hrest : rest.length ≤ n := by
          simp only [List.length_cons] at hs
          omega
        rintro ⟨a, u, b, hu, heq⟩
        match a, heq with
        | [], heq =>
          rcases ipStr_head hu with ⟨d, u2, rfl, hd⟩
          rw [List.nil_append, List.cons_append] at heq
          injection heq with e1 e2
          have hchars : ∀ c2 ∈ u2, c2.isDigit = true ∨ c2 = '.' :=
            fun c2 hc => ipStr_chars hu c2 (List.mem_cons_of_mem _ hc)
          rcases prefix_replaceAll n rest hrest u2 b e2 hchars with ⟨b2, hb⟩
          have hip : ipStr (c :: u2) := by
            rw [e1]
            exact hu
          have : (matchIp ((c :: u2) ++ b2)).isSome = true := matchIp_complete hip b2
          rw [List.cons_append, ← hb, hm] at this
          cases this
        | a0 :: a2, heq =>
          rw [List.cons_append, List.cons_append] at heq
          injection heq with e1 e2
          exact ih rest hrest ⟨a2, u, b, hu, e2⟩

theorem replaceAll_of_noIp :
    ∀ (n : Nat) (s : List Char), s.length ≤ n → NoIp s → replaceAll s = s := by
  intro n
  induction n with
  | zero =>
    intro s hs _
    rw [List.eq_nil_of_length_eq_zero (Nat.le_zero.mp hs), replaceAll_nil]
  | succ n ih =>
    intro s hs hno
    match s with
    | [] => exact replaceAll_nil
    | c :: rest =>
      cases hm : matchIp (c :: rest) with
      | some r =>
        rcases matchIp_sound hm with ⟨u, hu, hd⟩
        exact absurd ⟨[], u, r, hu, by rw [List.nil_append]; exact hd⟩ hno
      | none =>
        rw [replaceAll_cons_none hm]
        have hrest : rest.length ≤ n := by
          simp only [List.length_cons] at hs
          omega
        rw [ih rest hrest (noIp_tail hno)]

/-- `filter_ips` from `src/parsers/ip_filtering.rs`: replace every
`IP_REGEX` match by `-censored-`. -/
def filter_ips (s : String) : String := String.mk (replaceAll s.data)

/-- C5: the IP redactor is idempotent: `filter_ips (filter_ips t) = filter_ips t`
for every text `t`. -/
theorem C5_filter_ips_idempotent : ∀ t : String, filter_ips (filter_ips t) = filter_ips t := by
  intro t
  show String.mk (replaceAll (replaceAll t.data)) = String.mk (replaceAll t.data)
  rw [replaceAll_of_noIp (replaceAll t.data).length (replaceAll t.data) (le_refl _)
    (noIp_replaceAll_aux t.data.length t.data (le_refl _))]

/-! ### `src/parsers/game.rs` — the line classifier `parse_line`

Rust panics (`expect("out of words")`, `words_vec[len - 4]` with `len < 4`,
the byte slice `log_type[0..len-1]` on an empty token or a token whose last
character is not one UTF-8 byte) are modelled by `none`.  Strings are
modelled at the character level; the only byte-level operation,
`log_type[0..len-1]`, is modelled by `List.dropLast` guarded by a check
that the last character is a single UTF-8 byte. -/

/-- Rust `str::trim` (whitespace at both ends).  Lean's `Char.isWhitespace`
covers space, tab, CR and LF; the exotic Unicode `White_Space` characters
also trimmed by Rust do not appear in any claim. -/
def trimChars (l : List Char) : List Char :=
  ((l.dropWhile Char.isWhitespace).reverse.dropWhile Char.isWhitespace).reverse

/-- Rust `str::split_once(c)`: split at the first occurrence of `c`,
excluding the separator. -/
def splitOnceChar (sep : Char) : List Char → Option (List Char × List Char)
  | [] => none
  | c :: rest =>
    if c = sep then some ([], rest)
    else
      match splitOnceChar sep rest with
      | none => none
      | some (a, b) => some (c :: a, b)

/-- Rust `str::split(c)` (an empty input yields one empty item). -/
def splitChar (sep : Char) : List Char → List (List Char)
  | [] => [[]]
  | c :: rest =>
    if c = sep then [] :: splitChar sep rest
    else
      match splitChar sep rest with
      | [] => [[c]]
      | h :: t => (c :: h) :: t

/-- Rust `Vec::join(" ")`. -/
def joinSpace : List (List Char) → List Char
  | [] => []
  | [w] => w
  | w :: ws => w ++ ' ' :: joinSpace ws

/-- `pre.isPrefixOf l`, Rust `str::starts_with`. -/
def listStarts (pre l : List Char) : Bool := pre.isPrefixOf l

theorem listStarts_iff {p l : List Char} : listStarts p l = true ↔ p <+: l := by
  unfold listStarts
  exact List.isPrefixOf_iff_prefix

/-- Rust `str::ends_with(':')`. -/
def endsColon (l : List Char) : Bool := decide (l.getLast? = some ':')

/-- Count the leading digits and return the remainder (maximal munch;
equivalent to the regex repetitions here because every digit group of
`TIMESTAMP_REGEX` is followed by a non-digit literal or the end). -/
def digitsRun : List Char → Nat × List Char
  | [] => (0, [])
  | c :: rest =>
    if c.isDigit then
      let p := digitsRun rest
      (p.1 + 1, p.2)
    else (0, c :: rest)

theorem digitsRun_sndLe : ∀ l : List Char, (digitsRun l).2.length ≤ l.length := by
  intro l
  induction l with
  | nil => simp [digitsRun]
  | cons c rest ih =>
    simp only [digitsRun]
    split_ifs
    · simpa using Nat.le_succ_of_le ih
    · simp

/-- The clock part `[0-9]{2}:[0-9]{2}:[0-9]{2}` of `TIMESTAMP_REGEX`;
returns the remainder. -/
def clockExact : List Char → Option (List Char)
  | a :: b :: c :: d :: e :: f :: g :: h :: rest =>
    if a.isDigit ∧ b.isDigit ∧ c = ':' ∧ d.isDigit ∧ e.isDigit ∧ f = ':' ∧
        g.isDigit ∧ h.isDigit then
      some rest
    else none
  | _ => none

/-- The fractional-second groups `(\.[0-9]{1,3})+$`. -/
def fracGroups : List Char → Bool
  | [] => false
  | c :: rest =>
    if c = '.' then
      let p := digitsRun rest
      if 1 ≤ p.1 ∧ p.1 ≤ 3 then
        match h : p.2 with
        | [] => true
        | _ :: _ => fracGroups p.2
      else false
    else false
termination_by l => l.length
decreasing_by
  have := digitsRun_sndLe rest
  simp only [List.length_cons]
  omega

/-- The date-time alternative of `TIMESTAMP_REGEX`:
`[0-9]{2,4}-[0-9]{2,4}-[0-9]{2,4} [0-9]{2}:[0-9]{2}:[0-9]{2}(\.[0-9]{1,3})+$`. -/
def dateForm (l : List Char) : Bool :=
  let p1 := digitsRun l
  if 2 ≤ p1.1 ∧ p1.1 ≤ 4 then
    match p1.2 with
    | '-' :: r2 =>
      let p2 := digitsRun r2
      if 2 ≤ p2.1 ∧ p2.1 ≤ 4 then
        match p2.2 with
        | '-' :: r3 =>
          let p3 := digitsRun r3
          if 2 ≤ p3.1 ∧ p3.1 ≤ 4 then
            match p3.2 with
            | ' ' :: r4 =>
              match clockExact r4 with
              | some r5 => fracGroups r5
              | none => false
            | _ => false
          else false
        | _ => false
      else false
    | _ => false
  else false

/-- `TIMESTAMP_REGEX.is_match`: a bare `HH:MM:SS` consuming the whole text,
or the date-time alternative. -/
def tsMatch (l : List Char) : Bool :=
  match clockExact l with
  | some [] => true
  | _ => dateForm l

/-- Scan for a match of `p` at any offset reachable through `.*`
(non-newline characters). -/
def scanNoNl (p : List Char → Bool) : List Char → Bool
  | [] => p []
  | c :: rest => p (c :: rest) || (c ≠ '\n' && scanNoNl p rest)

/-- Scan for a match of `p` at any offset reachable through `[^:]*`
(any characters except `:`; unlike `.` a negated class does match a
newline). -/
def scanNoColon (p : List Char → Bool) : List Char → Bool
  | [] => p []
  | c :: rest => p (c :: rest) || (c ≠ ':' && scanNoColon p rest)

/-- The `ADMIN` patterns of shape `^.*/\(.*\)<lit>`: find `/(` after `.*`,
then the closing literal after another `.*`. -/
def adminPatSlash (close : List Char) (l : List Char) : Bool :=
  scanNoNl (fun t => listStarts ['/', '('] t &&
    scanNoNl (fun u => listStarts close u) (t.drop 2)) l

/-- The `ADMIN` pattern `^[^:]*/\(.*\) ".*"`. -/
def adminPatQuote (l : List Char) : Bool :=
  scanNoColon (fun t => listStarts ['/', '('] t &&
    scanNoNl (fun u => listStarts [')', ' ', '"'] u &&
      scanNoNl (fun v => listStarts ['"'] v) (u.drop 3)) (t.drop 2)) l

/-- `REGEX_SET.is_match(remaining)` of the `ADMIN` arm, pattern by pattern. -/
def adminMatch (l : List Char) : Bool :=
  listStarts "HELP:".data l || listStarts "PM:".data l || listStarts "ASAY:".data l ||
  listStarts "<a".data l ||
  adminPatSlash [')', ' ', ':', ' '] l ||
  adminPatSlash ") added note ".data l ||
  adminPatSlash ") removed a note ".data l ||
  adminPatSlash ") has added ".data l ||
  adminPatSlash ") has edited ".data l ||
  adminPatQuote l

/-- Rust `str::trim_start_matches("GAME-")` (removes every repetition). -/
def stripGame : List Char → List Char
  | 'G' :: 'A' :: 'M' :: 'E' :: '-' :: rest => stripGame rest
  | l => l

/-- The censorship placeholder `-censored(<kind>)-`. -/
def censorStr (kind : String) : String := "-censored(" ++ kind ++ ")-"

/-- All full-line placeholders `parse_line` can return. -/
def censorListC : List (List Char) :=
  [(censorStr "empty_line").data, (censorStr "no_ts_start").data,
   (censorStr "no_category_colon").data, (censorStr "no_ts_regex_match").data,
   (censorStr "no_space_after_timestamp").data, (censorStr "game_compat_no_followup").data,
   (censorStr "invalid connection data").data, (censorStr "asay/apm/ahelp/notes/etc").data,
   (censorStr "private logtype").data, (censorStr "world_topic logs").data,
   (censorStr "sql logs").data]

/-- The `match` on `log_type[0..(log_type.len() - 1)].trim_start_matches("GAME-")`
(lines 64–116 of game.rs).  `log_type` is passed unsliced, as in the source,
because the `ACCESS`/`Login:` arm interpolates the unsliced token. -/
def dispatchCat (timestamp log_type : List Char) (words : List (List Char))
    (line : List Char) : Option (List Char) :=
  if log_type = [] then none
  else if (log_type.getLast?.getD ' ').utf8Size ≠ 1 then none
  else if stripGame log_type.dropLast = "ACCESS".data then
    match words with
    | w :: rest =>
      if w = "Login:".data then
        if rest.length < 4 then none
        else
          some (timestamp ++ "] ".data ++ log_type ++ " Login: ".data ++
            joinSpace (rest.set (rest.length - 4) (censorStr "ip/cid").data))
      else if w = "Failed".data then some (censorStr "invalid connection data").data
      else some line
    | [] => some line
  else if stripGame log_type.dropLast = "ADMIN".data then
    if adminMatch (joinSpace words) then some (censorStr "asay/apm/ahelp/notes/etc").data
    else some line
  else if stripGame log_type.dropLast = "ADMINPRIVATE".data then
    some (censorStr "private logtype").data
  else if stripGame log_type.dropLast = "TOPIC".data then
    some (censorStr "world_topic logs").data
  else if stripGame log_type.dropLast = "SQL".data then
    some (censorStr "sql logs").data
  else some line

/-- The body of `parse_line` on the already-trimmed line. -/
def parseLineCore (line : List Char) : Option (List Char) :=
  if line = [] then some (censorStr "empty_line").data
  else if listStarts ['['] line = false then some (censorStr "no_ts_start").data
  else
    match splitOnceChar ']' line with
    | none => some (censorStr "no_category_colon").data
    | some (timestamp, contents) =>
      if tsMatch (timestamp.drop 1) = false then some (censorStr "no_ts_regex_match").data
      else if listStarts " Starting up round ID ".data contents = true then some line
      else
        match splitChar ' ' contents with
        | [] => some line
        | w0 :: ws =>
          if w0 ≠ [] then some (censorStr "no_space_after_timestamp").data
          else
            match ws with
            | [] => none
            | next :: ws2 =>
              if endsColon next = false then some (censorStr "no_category_colon").data
              else if next = "GAME-COMPAT:".data then
                match ws2 with
                | [] => some (censorStr "game_compat_no_followup").data
                | t :: ws3 => dispatchCat timestamp t ws3 line
              else dispatchCat timestamp next ws2 line

/-- `parse_line` on a character list: trim, then classify. -/
def parseLineChars (input : List Char) : Option (List Char) :=
  parseLineCore (trimChars input)

/-- `parse_line` from `src/parsers/game.rs` (`none` = the call panics). -/
def parse_line (s : String) : Option String :=
  Option.map String.mk (parseLineChars s.data)

/-- Instrumentation (not part of the source): does the dispatch of
`parse_line` reach the `ACCESS` arm with next word `Login:`?  Mirrors the
guards of `parseLineCore`/`dispatchCat` up to that arm. -/
def accessLoginDispatch (log_type : List Char) (words : List (List Char)) : Bool :=
  if log_type = [] then false
  else if (log_type.getLast?.getD ' ').utf8Size ≠ 1 then false
  else if stripGame log_type.dropLast = "ACCESS".data then
    match words with
    | w :: _ => w = "Login:".data
    | [] => false
  else false

/-- Instrumentation (not part of the source): does `parse_line` on this
input reach the `ACCESS`/`Login:` reconstruction arm? -/
def accessLoginCore (line : List Char) : Bool :=
  if line = [] then false
  else if listStarts ['['] line = false then false
  else
    match splitOnceChar ']' line with
    | none => false
    | some (timestamp, contents) =>
      if tsMatch (timestamp.drop 1) = false then false
      else if listStarts " Starting up round ID ".data contents = true then false
      else
        match splitChar ' ' contents with
        | [] => false
        | w0 :: ws =>
          if w0 ≠ [] then false
          else
            match ws with
            | [] => false
            | next :: ws2 =>
              if endsColon next = false then false
              else if next = "GAME-COMPAT:".data then
                match ws2 with
                | [] => false
                | t :: ws3 => accessLoginDispatch t ws3
              else accessLoginDispatch next ws2

/-- Instrumentation wrapper on the untrimmed input. -/
def accessLoginPath (input : List Char) : Bool := accessLoginCore (trimChars input)

/-- C1: the claim says `parse_line` never panics on pathological inputs.
The code does panic: `words.next().expect("out of words")` when the contents
end right after the timestamp bracket, `words_vec[words_vec.len() - 4]` when
an `ACCESS ... Login:` line has fewer than 4 following words, and the byte
slice `log_type[0..log_type.len() - 1]` when a `GAME-COMPAT:` token is
followed by an empty token.  All three modelled panics (`none`) are reached. -/
theorem C1_parse_line_panics :
    parse_line "[12:12:12]" = none ∧
    parse_line "[12:12:12] ACCESS: Login: a b c" = none ∧
    parse_line "[12:12:12] GAME-COMPAT:  x" = none := by
  refine ⟨rfl, rfl, rfl⟩

/-- C3 counterexample: the empty line does not start with `[`, yet the
classifier returns `-censored(empty_line)-`, not `-censored(no_ts_start)-`. -/
theorem C3_counterexample :
    parse_line "" = some "-censored(empty_line)-" ∧
    (("" : String).startsWith "[" = false) ∧
    ("-censored(empty_line)-" : String) ≠ "-censored(no_ts_start)-" := by
  refine ⟨rfl, by decide, by decide⟩

/-- C3 (amended): for every line whose whitespace-trimmed form is nonempty
and does not start with `[`, the classifier returns `-censored(no_ts_start)-`. -/
theorem C3_no_ts_start (l : String) (h1 : trimChars l.data ≠ [])
    (h2 : listStarts ['['] (trimChars l.data) = false) :
    parse_line l = some (censorStr "no_ts_start") := by
  unfold parse_line parseLineChars parseLineCore
  rw [if_neg h1, if_pos h2]
  rfl

/-- Witness for C3: the spec example `"not a log line"`. -/
theorem C3_witness :
    trimChars ("not a log line" : String).data ≠ [] ∧
    listStarts ['['] (trimChars ("not a log line" : String).data) = false ∧
    parse_line "not a log line" = some (censorStr "no_ts_start") :=
  ⟨by decide, by decide, C3_no_ts_start "not a log line" (by decide) (by decide)⟩

theorem dispatchCat_shape {timestamp log_type : List Char} {words : List (List Char)}
    {line r : List Char} (h : accessLoginDispatch log_type words = false)
    (hr : dispatchCat timestamp log_type words line = some r) :
    r = line ∨ r ∈ censorListC := by
  unfold dispatchCat at hr
  unfold accessLoginDispatch at h
  split_ifs at hr with h1 h2 h3 h4 h5 h6 h7 h8
  · rw [if_neg h1, if_neg h2, if_pos h3] at h
    cases words with
    | nil =>
      dsimp only at hr
      injection hr with e
      exact Or.inl e.symm
    | cons w rest =>
      dsimp only at hr h
      have hw : w ≠ "Login:".data := by simpa using h
      rw [if_neg hw] at hr
      split_ifs at hr with hf
      · injection hr with e
        exact Or.inr (by rw [← e]; simp [censorListC])
      · injection hr with e
        exact Or.inl e.symm
  · injection hr with e
    exact Or.inr (by rw [← e]; simp [censorListC])
  · injection hr with e
    exact Or.inl e.symm
  · injection hr with e
    exact Or.inr (by rw [← e]; simp [censorListC])
  · injection hr with e
    exact Or.inr (by rw [← e]; simp [censorListC])
  · injection hr with e
    exact Or.inr (by rw [← e]; simp [censorListC])
  · injection hr with e
    exact Or.inl e.symm

theorem parseLineCore_shape (line : List Char) (h : accessLoginCore line = false) :
    ∀ r, parseLineCore line = some r → r = line ∨ r ∈ censorListC := by
  intro r hr
  unfold parseLineCore at hr
  unfold accessLoginCore at h
  split_ifs at hr with p1 p2
  · injection hr with e
    exact Or.inr (by rw [← e]; simp [censorListC])
  · injection hr with e
    exact Or.inr (by rw [← e]; simp [censorListC])
  · rw [if_neg p1, if_neg p2] at h
    rcases hsp : splitOnceChar ']' line with - | ⟨ts, contents⟩
    · simp only [hsp] at hr
      injection hr with e
      exact Or.inr (by rw [← e]; simp [censorListC])
    · simp only [hsp] at hr h
      split_ifs at hr with p3 p4
      · injection hr with e
        exact Or.inr (by rw [← e]; simp [censorListC])
      · injection hr with e
        exact Or.inl e.symm
      · rw [if_neg p3, if_neg p4] at h
        rcases hsc : splitChar ' ' contents with - | ⟨w0, ws⟩
        · simp only [hsc] at hr
          injection hr with e
          exact Or.inl e.symm
        · simp only [hsc] at hr h
          split_ifs at hr with p5
          · injection hr with e
            exact Or.inr (by rw [← e]; simp [censorListC])
          · rw [if_neg p5] at h
            cases ws with
            | nil => exact absurd hr (by dsimp only; simp)
            | cons next ws2 =>
              dsimp only at hr h
              split_ifs at hr with p6 p7
              · injection hr with e
                exact Or.inr (by rw [← e]; simp [censorListC])
              · rw [if_neg p6, if_pos p7] at h
                cases ws2 with
                | nil =>
                  dsimp only at hr
                  injection hr with e
                  exact Or.inr (by rw [← e]; simp [censorListC])
                | cons t ws3 =>
                  dsimp only at hr h
                  exact dispatchCat_shape h hr
              · rw [if_neg p6, if_neg p7] at h
                exact dispatchCat_shape h hr

/-- C4 (amended): whenever `parse_line` does not take the `ACCESS`/`Login:`
arm and returns a value, that value is either the whitespace-trimmed
original line byte-for-byte or one of the fixed full-line placeholders;
only the `ACCESS`/`Login:` arm reconstructs the line from tokens. -/
theorem C4_non_login_shape (l : List Char) (h : accessLoginPath l = false) :
    ∀ r, parseLineChars l = some r → r = trimChars l ∨ r ∈ censorListC := by
  intro r hr
  exact parseLineCore_shape (trimChars l) h r hr

/-- Witness for C4 (amended) at a concrete `SQL` line. -/
theorem C4_witness :
    accessLoginPath ("[12:00:00] SQL: x" : String).data = false ∧
    parseLineChars ("[12:00:00] SQL: x" : String).data = some (censorStr "sql logs").data ∧
    ((censorStr "sql logs").data = trimChars ("[12:00:00] SQL: x" : String).data ∨
      (censorStr "sql logs").data ∈ censorListC) :=
  ⟨by decide, by decide, C4_non_login_shape _ (by decide) _ (by decide)⟩

/-- C4 counterexample: a non-`ACCESS`/`Login:` line with a leading space is
returned trimmed, which is neither the original bytes nor a placeholder. -/
theorem C4_counterexample :
    parseLineChars (" [00:00:00] FOO: x" : String).data =
      some ("[00:00:00] FOO: x" : String).data ∧
    accessLoginPath (" [00:00:00] FOO: x" : String).data = false ∧
    ("[00:00:00] FOO: x" : String).data ≠ (" [00:00:00] FOO: x" : String).data ∧
    ("[00:00:00] FOO: x" : String).data ∉ censorListC := by
  refine ⟨by decide, by decide, by decide, by decide⟩

theorem splitChar_ne_nil (sep : Char) (l : List Char) : splitChar sep l ≠ [] := by
  cases l with
  | nil => simp [splitChar]
  | cons c rest =>
    simp only [splitChar]
    split_ifs
    · simp
    · rcases h : splitChar sep rest with - | ⟨a, b⟩ <;> simp

theorem splitChar_append (sep : Char) (xs ys : List Char) :
    splitChar sep (xs ++ sep :: ys) = splitChar sep xs ++ splitChar sep ys := by
  induction xs with
  | nil => simp [splitChar]
  | cons c rest ih =>
    simp only [List.cons_append, splitChar, List.append_eq]
    split_ifs with hc
    · rw [ih]
      simp [splitChar]
    · rw [ih]
      rcases h : splitChar sep rest with - | ⟨a, b⟩
      · exact absurd h (splitChar_ne_nil sep rest)
      · simp

theorem splitChar_no_sep (sep : Char) (xs : List Char) (h : sep ∉ xs) :
    splitChar sep xs = [xs] := by
  induction xs with
  | nil => simp [splitChar]
  | cons c rest ih =>
    simp only [List.mem_cons, not_or] at h
    simp only [splitChar]
    rw [if_neg (fun hc => h.1 hc.symm), ih h.2]

theorem getLast?_append_ne {xs ys : List Char} (h : ys ≠ []) :
    (xs ++ ys).getLast? = ys.getLast? := by
  induction xs with
  | nil => rfl
  | cons c rest ih =>
    rcases hre : rest ++ ys with - | ⟨d, l⟩
    · rcases List.append_eq_nil.mp hre with ⟨-, rfl⟩
      exact absurd rfl h
    · rw [List.cons_append, hre, List.getLast?_cons_cons, ← hre, ih]

theorem dropWhile_eq_self_of_headNotWs {p : Char → Bool} {l : List Char}
    (h : ∀ c, l.head? = some c → p c = false) : l.dropWhile p = l := by
  cases l with
  | nil => rfl
  | cons c rest =>
    rw [List.dropWhile_cons, if_neg]
    simp [h c rfl]

theorem trimChars_eq_self {l : List Char} (hh : ∀ c, l.head? = some c → c.isWhitespace = false)
    (hl : ∀ c, l.getLast? = some c → c.isWhitespace = false) : trimChars l = l := by
  unfold trimChars
  rw [dropWhile_eq_self_of_headNotWs hh]
  rw [dropWhile_eq_self_of_headNotWs (fun c hc => hl c (by rwa [List.head?_reverse] at hc))]
  exact List.reverse_reverse l

/-- C10: when the category token is `GAME-COMPAT:`, the classifier
dispatches on the follow-up token with its final character removed
unconditionally — the whole parse factors through `dispatchCat` applied to
the raw follow-up token (no check that it ends in `:`), and `dispatchCat`
strips the last character before the category match.  In particular a
follow-up `SQL` dispatches as `SQ` and falls through to passthrough, while
`SQL:` dispatches as `SQL` and is censored. -/
theorem C10_game_compat_dispatch :
    (∀ t r : List Char, ' ' ∉ t → r ≠ [] →
      (∀ c, r.getLast? = some c → c.isWhitespace = false) →
      parseLineChars ("[00:00:00] GAME-COMPAT: ".data ++ (t ++ ' ' :: r)) =
        dispatchCat "[00:00:00".data t (splitChar ' ' r)
          ("[00:00:00] GAME-COMPAT: ".data ++ (t ++ ' ' :: r))) ∧
    parse_line "[00:00:00] GAME-COMPAT: SQL DELETE FROM tab" =
      some "[00:00:00] GAME-COMPAT: SQL DELETE FROM tab" ∧
    parse_line "[00:00:00] GAME-COMPAT: SQL: DELETE FROM tab" =
      some "-censored(sql logs)-" := by
  refine ⟨?_, rfl, rfl⟩
  intro t r hsp hr hlast
  have hline : ("[00:00:00] GAME-COMPAT: ".data ++ (t ++ ' ' :: r) : List Char) ≠ [] := by
    simp
  have htrim : trimChars ("[00:00:00] GAME-COMPAT: ".data ++ (t ++ ' ' :: r)) =
      "[00:00:00] GAME-COMPAT: ".data ++ (t ++ ' ' :: r) := by
    refine trimChars_eq_self (fun c hc => ?_) (fun c hc => ?_)
    · rw [show ("[00:00:00] GAME-COMPAT: ".data ++ (t ++ ' ' :: r)).head? = some '[' from rfl]
        at hc
      cases hc
      decide
    · rw [getLast?_append_ne (by simp), getLast?_append_ne (by simp)] at hc
      rcases List.exists_cons_of_ne_nil hr with ⟨d, r2, rfl⟩
      rw [List.getLast?_cons_cons] at hc
      exact hlast c hc
  have hsplit : splitChar ' ' (" GAME-COMPAT: ".data ++ (t ++ ' ' :: r)) =
      [] :: "GAME-COMPAT:".data :: t :: splitChar ' ' r := by
    have e1 : (" GAME-COMPAT: ".data ++ (t ++ ' ' :: r) : List Char) =
        (' ' :: "GAME-COMPAT:".data) ++ ' ' :: (t ++ ' ' :: r) := rfl
    rw [e1, splitChar_append, splitChar_append]
    rw [show splitChar ' ' (' ' :: "GAME-COMPAT:".data) = [] :: [("GAME-COMPAT:".data)] from by
      decide]
    rw [splitChar_no_sep ' ' t hsp]
    rfl
  unfold parseLineChars
  rw [htrim]
  unfold parseLineCore
  rw [if_neg hline]
  rw [show listStarts ['['] ("[00:00:00] GAME-COMPAT: ".data ++ (t ++ ' ' :: r)) = true from rfl]
  rw [if_neg (by simp)]
  rw [show splitOnceChar ']' ("[00:00:00] GAME-COMPAT: ".data ++ (t ++ ' ' :: r)) =
    some ("[00:00:00".data, " GAME-COMPAT: ".data ++ (t ++ ' ' :: r)) from rfl]
  dsimp only
  rw [show tsMatch (List.drop 1 "[00:00:00".data) = true from rfl]
  rw [if_neg (by simp)]
  rw [show listStarts " Starting up round ID ".data
    (" GAME-COMPAT: ".data ++ (t ++ ' ' :: r)) = false from rfl]
  rw [if_neg (by simp)]
  rw [hsplit]
  dsimp only
  rw [if_neg (by simp)]
  rw [show endsColon "GAME-COMPAT:".data = true from rfl]
  rw [if_neg (by simp)]
  rw [if_pos rfl]

/-- Witness for C10 at follow-up token `SQL` with remainder `x`. -/
theorem C10_witness :
    parseLineChars ("[00:00:00] GAME-COMPAT: ".data ++ ("SQL".data ++ ' ' :: "x".data)) =
      dispatchCat "[00:00:00".data "SQL".data (splitChar ' ' "x".data)
        ("[00:00:00] GAME-COMPAT: ".data ++ ("SQL".data ++ ' ' :: "x".data)) :=
  C10_game_compat_dispatch.1 "SQL".data "x".data (by decide) (by decide)
    (by intro c hc; cases hc; rfl)

/-! ### `src/parsers/runtimes.rs` — sanitizer and runtime aggregator

The `HashMap` of `get_condensed_runtimes` is modelled as an association
list in insertion order; its iteration order (and hence the order among
equal counts after the sort) is unspecified in Rust, so nothing below
depends on it.  `u64` counters are modelled as `Nat` (no input reachable
by the scan can overflow a `u64`). -/

/-- Rust `str::lines`: split on `\n`, drop a final empty piece, strip one
trailing `\r` from each line. -/
def stripCr (l : List Char) : List Char :=
  match l.getLast? with
  | some '\r' => l.dropLast
  | _ => l

/-- Rust `str::lines` over a character list. -/
def linesOf (s : List Char) : List (List Char) :=
  let parts := splitChar '\n' s
  (if parts.getLast? = some [] then parts.dropLast else parts).map stripCr

/-- Rust `Vec::join("\n")`. -/
def joinNl : List (List Char) → List Char
  | [] => []
  | [l] => l
  | l :: ls => l ++ '\n' :: joinNl ls

/-- Does `pat` occur as a contiguous substring? -/
def containsSub (pat : List Char) : List Char → Bool
  | [] => listStarts pat []
  | c :: rest => listStarts pat (c :: rest) || containsSub pat rest

/-- `STRING_OUTPUT_REGEX.replace`: the regex `^.*Cannot read ".*$` matches
the whole line exactly when the line has no `\n` and contains
`Cannot read "`; the match (the whole line) is then replaced. -/
def sanitize_runtimes_line (l : List Char) : List Char :=
  if '\n' ∉ l ∧ containsSub "Cannot read \"".data l then
    "-censored (string output)".data
  else l

/-- `process_runtimes_log` from `src/parsers/runtimes.rs`. -/
def process_runtimes_log (s : String) : String :=
  String.mk (joinNl ((linesOf s.data).map sanitize_runtimes_line))

/-- Strip a literal text from the head, or fail. -/
def stripPre (pat l : List Char) : Option (List Char) :=
  if listStarts pat l then some (l.drop pat.length) else none

/-- After `\[.+?\] `, match `(?:RUNTIME: )?runtime error: (.*)$` (the
optional group is tried first; the two literals can never both apply). -/
def annTail (t : List Char) : Option (List Char) :=
  match stripPre "RUNTIME: runtime error: ".data t with
  | some r => some r
  | none => stripPre "runtime error: ".data t

/-- The lazy `.+?\] ` scan of `RE_RUNTIME_ERROR_START`: at each split point
(at least one consumed non-`\n` character) try `] ` followed by the tail of
the regex; the first success wins, otherwise the lazy group grows. -/
def annScan : List Char → Option (List Char)
  | [] => none
  | c :: rest =>
    if c = '\n' then none
    else
      match (if listStarts [']', ' '] rest then annTail (rest.drop 2) else none).filter
          (fun cap => decide ('\n' ∉ cap)) with
      | some cap => some cap
      | none => annScan rest

/-- `RE_RUNTIME_ERROR_START.captures`: `^\[.+?\] (?:RUNTIME: )?runtime
error: (.*)$`, returning the captured message. -/
def parseAnn (l : List Char) : Option (List Char) :=
  match l with
  | c :: rest => if c = '[' then annScan rest else none
  | [] => none

/-- `RE_RUNTIME_PROC_NAME.captures`: `^ \- (?:proc|verb) name: (.+)$`. -/
def parseProcName (l : List Char) : Option (List Char) :=
  match stripPre " - proc name: ".data l with
  | some cap => if cap ≠ [] ∧ '\n' ∉ cap then some cap else none
  | none =>
    match stripPre " - verb name: ".data l with
    | some cap => if cap ≠ [] ∧ '\n' ∉ cap then some cap else none
    | none => none

/-- The lazy `(.+?): (.+)$` part of `RE_RUNTIME_FIELD`: the shortest
non-empty non-`\n` field name followed by `: ` and a non-empty
non-`\n` value reaching the end. -/
def fieldScan : List Char → Option (List Char × List Char)
  | [] => none
  | c :: rest =>
    if c = '\n' then none
    else if listStarts [':', ' '] rest ∧ rest.drop 2 ≠ [] ∧ '\n' ∉ rest.drop 2 then
      some ([c], rest.drop 2)
    else
      match fieldScan rest with
      | some (nm, v) => some (c :: nm, v)
      | none => none

/-- `RE_RUNTIME_FIELD.captures`: `^ \-   (.+?): (.+)$`. -/
def parseField (l : List Char) : Option (List Char × List Char) :=
  match stripPre " -   ".data l with
  | some t => fieldScan t
  | none => none

/-- `read_field`: peek the next line; consume it only when it is a field
line whose name is exactly `expecting`. -/
def readField (expecting : List Char) (ls : List (List Char)) :
    Option (List Char) × List (List Char) :=
  match ls with
  | [] => (none, [])
  | l :: rest =>
    match parseField l with
    | none => (none, l :: rest)
    | some (nm, v) => if nm = expecting then (some v, rest) else (none, l :: rest)

/-- The inner `loop` of `get_condensed_runtimes`: consume lines until one
matches the proc/verb-name regex (multi-line runtimes), or end of input. -/
def findProcName : List (List Char) → Option (List Char × List (List Char))
  | [] => none
  | l :: rest =>
    match parseProcName l with
    | some p => some (p, rest)
    | none => findProcName rest

structure CondensedRuntimeKey where
  message : List Char
  proc_name : List Char
deriving DecidableEq, Repr

structure CondensedRuntimeValue where
  source_file : Option (List Char)
  usr : List Char
  src : List Char
  src_loc : Option (List Char)
  count : Nat
deriving DecidableEq, Repr

/-- Association-list model of the `HashMap`: lookup by structural key. -/
def lookupKey (k : CondensedRuntimeKey) :
    List (CondensedRuntimeKey × CondensedRuntimeValue) → Option CondensedRuntimeValue
  | [] => none
  | (k2, v) :: rest => if k2 = k then some v else lookupKey k rest

/-- `condensed_runtime_value.count += 1` on the entry of `k`. -/
def bumpKey (k : CondensedRuntimeKey) :
    List (CondensedRuntimeKey × CondensedRuntimeValue) →
      List (CondensedRuntimeKey × CondensedRuntimeValue)
  | [] => []
  | (k2, v) :: rest =>
    if k2 = k then (k2, { v with count := v.count + 1 }) :: rest
    else (k2, v) :: bumpKey k rest

theorem findProcName_len {ls : List (List Char)} {p : List Char} {rest2 : List (List Char)}
    (h : findProcName ls = some (p, rest2)) : rest2.length < ls.length := by
  induction ls generalizing p rest2 with
  | nil => exact absurd h (by simp [findProcName])
  | cons l rest ih =>
    unfold findProcName at h
    split at h
    · cases h
      simp
    · exact Nat.lt_trans (ih h) (by simp)

theorem readField_len (e : List Char) (ls : List (List Char)) :
    (readField e ls).2.length ≤ ls.length := by
  unfold readField
  split
  · simp
  · split
    · simp
    · split <;> simp

/-- The `'main_loop` of `get_condensed_runtimes`, over the remaining lines,
the record table and `runtime_count`.  Note the count is incremented as soon
as an announcement line is seen, before the proc-name pairing. -/
def aggregate : List (List Char) → List (CondensedRuntimeKey × CondensedRuntimeValue) → Nat →
    Nat × List (CondensedRuntimeKey × CondensedRuntimeValue)
  | [], m, count => (count, m)
  | l :: rest, m, count =>
    match parseAnn l with
    | none => aggregate rest m count
    | some msg =>
      match hfp : findProcName rest with
      | none => (count + 1, m)
      | some (pname, rest2) =>
        match lookupKey ⟨msg, pname⟩ m with
        | some _ => aggregate rest2 (bumpKey ⟨msg, pname⟩ m) (count + 1)
        | none =>
          match hf1 : readField "source file".data rest2 with
          | (source_file, rest3) =>
            match hf2 : readField "usr".data rest3 with
            | (none, rest4) => aggregate rest4 m (count + 1)
            | (some usr, rest4) =>
              match hf3 : readField "src".data rest4 with
              | (none, rest5) => aggregate rest5 m (count + 1)
              | (some src, rest5) =>
                match hf4 : readField "src.loc".data rest5 with
                | (src_loc, rest6) =>
                  aggregate rest6
                    (m ++ [(⟨msg, pname⟩, ⟨source_file, usr, src, src_loc, 1⟩)]) (count + 1)
termination_by ls _ _ => ls.length
decreasing_by
  · simp
  · have h2 := findProcName_len hfp
    simp only [List.length_cons]
    omega
  · have h2 := findProcName_len hfp
    have h3 : rest3.length ≤ rest2.length := by
      have := congrArg Prod.snd hf1
      simp at this
      rw [← this]
      exact readField_len _ _
    have h4 : rest4.length ≤ rest3.length := by
      have := congrArg Prod.snd hf2
      simp at this
      rw [← this]
      exact readField_len _ _
    simp only [List.length_cons]
    omega
  · have h2 := findProcName_len hfp
    have h3 : rest3.length ≤ rest2.length := by
      have := congrArg Prod.snd hf1
      simp at this
      rw [← this]
      exact readField_len _ _
    have h4 : rest4.length ≤ rest3.length := by
      have := congrArg Prod.snd hf2
      simp at this
      rw [← this]
      exact readField_len _ _
    have h5 : rest5.length ≤ rest4.length := by
      have := congrArg Prod.snd hf3
      simp at this
      rw [← this]
      exact readField_len _ _
    simp only [List.length_cons]
    omega
  · have h2 := findProcName_len hfp
    have h3 : rest3.length ≤ rest2.length := by
      have := congrArg Prod.snd hf1
      simp at this
      rw [← this]
      exact readField_len _ _
    have h4 : rest4.length ≤ rest3.length := by
      have := congrArg Prod.snd hf2
      simp at this
      rw [← this]
      exact readField_len _ _
    have h5 : rest5.length ≤ rest4.length := by
      have := congrArg Prod.snd hf3
      simp at this
      rw [← this]
      exact readField_len _ _
    have h6 : rest6.length ≤ rest5.length := by
      have := congrArg Prod.snd hf4
      simp at this
      rw [← this]
      exact readField_len _ _
    simp only [List.length_cons]
    omega

/-- `sort_by_key(u64::MAX - count)`: stable sort by descending count. -/
def sortRuntimes (m : List (CondensedRuntimeKey × CondensedRuntimeValue)) :
    List (CondensedRuntimeKey × CondensedRuntimeValue) :=
  m.mergeSort (fun a b => decide (b.2.count ≤ a.2.count))

structure CondensedRuntimes where
  total_count : Nat
  runtimes : List (CondensedRuntimeKey × CondensedRuntimeValue)
deriving DecidableEq, Repr

/-- The body of `get_condensed_runtimes` over the line list of the input. -/
def condenseLines (ls : List (List Char)) : CondensedRuntimes :=
  ⟨(aggregate ls [] 0).1, sortRuntimes (aggregate ls [] 0).2⟩

/-- `get_condensed_runtimes` from `src/parsers/runtimes.rs`. -/
def get_condensed_runtimes (s : String) : CondensedRuntimes :=
  condenseLines (linesOf s.data)

theorem aggregate_nil (m : List (CondensedRuntimeKey × CondensedRuntimeValue)) (c : Nat) :
    aggregate [] m c = (c, m) := by
  rw [aggregate]

theorem aggregate_skip {l : List Char} {rest : List (List Char)}
    {m : List (CondensedRuntimeKey × CondensedRuntimeValue)} {c : Nat}
    (h : parseAnn l = none) : aggregate (l :: rest) m c = aggregate rest m c := by
  rw [aggregate]
  split
  · rfl
  · next msg heq =>
    rw [h] at heq
    cases heq

theorem aggregate_drop {l : List Char} {rest : List (List Char)}
    {m : List (CondensedRuntimeKey × CondensedRuntimeValue)} {c : Nat} {msg : List Char}
    (h1 : parseAnn l = some msg) (h2 : findProcName rest = none) :
    aggregate (l :: rest) m c = (c + 1, m) := by
  rw [aggregate]
  split
  · next heq =>
    rw [h1] at heq
    cases heq
  · next msg2 heq =>
    rw [h1] at heq
    cases heq
    split
    · rfl
    · next p rest2 hfp =>
      rw [h2] at hfp
      cases hfp

theorem aggregate_dup {l : List Char} {rest rest2 : List (List Char)}
    {m : List (CondensedRuntimeKey × CondensedRuntimeValue)} {c : Nat}
    {msg pname : List Char} {v : CondensedRuntimeValue}
    (h1 : parseAnn l = some msg) (h2 : findProcName rest = some (pname, rest2))
    (h3 : lookupKey ⟨msg, pname⟩ m = some v) :
    aggregate (l :: rest) m c = aggregate rest2 (bumpKey ⟨msg, pname⟩ m) (c + 1) := by
  rw [aggregate]
  split
  · next heq =>
    rw [h1] at heq
    cases heq
  · next msg2 heq =>
    rw [h1] at heq
    cases heq
    split
    · next hfp =>
      rw [h2] at hfp
      cases hfp
    · next p rest2b hfp =>
      rw [h2] at hfp
      cases hfp
      split
      · rfl
      · next hlk =>
        rw [h3] at hlk
        cases hlk

theorem aggregate_nousr {l : List Char} {rest rest2 rest3 rest4 : List (List Char)}
    {m : List (CondensedRuntimeKey × CondensedRuntimeValue)} {c : Nat}
    {msg pname : List Char} {sf : Option (List Char)}
    (h1 : parseAnn l = some msg) (h2 : findProcName rest = some (pname, rest2))
    (h3 : lookupKey ⟨msg, pname⟩ m = none)
    (h4 : readField "source file".data rest2 = (sf, rest3))
    (h5 : readField "usr".data rest3 = (none, rest4)) :
    aggregate (l :: rest) m c = aggregate rest4 m (c + 1) := by
  rw [aggregate]
  split
  · next heq =>
    rw [h1] at heq
    cases heq
  · next msg2 heq =>
    rw [h1] at heq
    cases heq
    split
    · next hfp =>
      rw [h2] at hfp
      cases hfp
    · next p rest2b hfp =>
      rw [h2] at hfp
      cases hfp
      split
      · next v hlk =>
        rw [h3] at hlk
        cases hlk
      · split
        next sf2 rest3b hf1 =>
        rw [h4] at hf1
        cases hf1
        split
        · next rest4b hf2 =>
          rw [h5] at hf2
          cases hf2
          rfl
        · next u rest4b hf2 =>
          rw [h5] at hf2
          cases hf2

theorem aggregate_nosrc {l : List Char} {rest rest2 rest3 rest4 rest5 : List (List Char)}
    {m : List (CondensedRuntimeKey × CondensedRuntimeValue)} {c : Nat}
    {msg pname u : List Char} {sf : Option (List Char)}
    (h1 : parseAnn l = some msg) (h2 : findProcName rest = some (pname, rest2))
    (h3 : lookupKey ⟨msg, pname⟩ m = none)
    (h4 : readField "source file".data rest2 = (sf, rest3))
    (h5 : readField "usr".data rest3 = (some u, rest4))
    (h6 : readField "src".data rest4 = (none, rest5)) :
    aggregate (l :: rest) m c = aggregate rest5 m (c + 1) := by
  rw [aggregate]
  split
  · next heq =>
    rw [h1] at heq
    cases heq
  · next msg2 heq =>
    rw [h1] at heq
    cases heq
    split
    · next hfp =>
      rw [h2] at hfp
      cases hfp
    · next p rest2b hfp =>
      rw [h2] at hfp
      cases hfp
      split
      · next v hlk =>
        rw [h3] at hlk
        cases hlk
      · split
        next sf2 rest3b hf1 =>
        rw [h4] at hf1
        cases hf1
        split
        · next hf2 =>
          rw [h5] at hf2
          cases hf2
        · next u2 rest4b hf2 =>
          rw [h5] at hf2
          cases hf2
          split
          · next rest5b hf3 =>
            rw [h6] at hf3
            cases hf3
            rfl
          · next sv rest5b hf3 =>
            rw [h6] at hf3
            cases hf3

theorem aggregate_insert {l : List Char} {rest rest2 rest3 rest4 rest5 rest6 : List (List Char)}
    {m : List (CondensedRuntimeKey × CondensedRuntimeValue)} {c : Nat}
    {msg pname u sv : List Char} {sf sl : Option (List Char)}
    (h1 : parseAnn l = some msg) (h2 : findProcName rest = some (pname, rest2))
    (h3 : lookupKey ⟨msg, pname⟩ m = none)
    (h4 : readField "source file".data rest2 = (sf, rest3))
    (h5 : readField "usr".data rest3 = (some u, rest4))
    (h6 : readField "src".data rest4 = (some sv, rest5))
    (h7 : readField "src.loc".data rest5 = (sl, rest6)) :
    aggregate (l :: rest) m c =
      aggregate rest6 (m ++ [(⟨msg, pname⟩, ⟨sf, u, sv, sl, 1⟩)]) (c + 1) := by
  rw [aggregate]
  split
  · next heq =>
    rw [h1] at heq
    cases heq
  · next msg2 heq =>
    rw [h1] at heq
    cases heq
    split
    · next hfp =>
      rw [h2] at hfp
      cases hfp
    · next p rest2b hfp =>
      rw [h2] at hfp
      cases hfp
      split
      · next v hlk =>
        rw [h3] at hlk
        cases hlk
      · split
        next sf2 rest3b hf1 =>
        rw [h4] at hf1
        cases hf1
        split
        · next hf2 =>
          rw [h5] at hf2
          cases hf2
        · next u2 rest4b hf2 =>
          rw [h5] at hf2
          cases hf2
          split
          · next hf3 =>
            rw [h6] at hf3
            cases hf3
          · next sv2 rest5b hf3 =>
            rw [h6] at hf3
            cases hf3
            split
            next sl2 rest6b hf4 =>
            rw [h7] at hf4
            cases hf4
            rfl

theorem findProcName_none {ls : List (List Char)} (h : ∀ l ∈ ls, parseProcName l = none) :
    findProcName ls = none := by
  induction ls with
  | nil => rfl
  | cons l rest ih =>
    unfold findProcName
    rw [h l (List.mem_cons_self _ _)]
    exact ih (fun l2 hl => h l2 (List.mem_cons_of_mem _ hl))

/-- C2 (amended): once the scan reaches a runtime-error announcement line
that is followed by no proc-name or verb-name line before end of input, the
remaining scan adds exactly 1 to the running count (the code counts at the
announcement, before pairing) and leaves the record table unchanged — the
unterminated record produces no record. -/
theorem C2_unterminated_announcement (ann : List Char) (rest : List (List Char))
    (m : List (CondensedRuntimeKey × CondensedRuntimeValue)) (c : Nat) (msg : List Char)
    (h1 : parseAnn ann = some msg) (h2 : ∀ l ∈ rest, parseProcName l = none) :
    aggregate (ann :: rest) m c = (c + 1, m) :=
  aggregate_drop h1 (findProcName_none h2)

/-- C2 counterexample: a single announcement line with no following
proc-name line yields `total_count = 1` (the claim says it contributes 0)
and no record. -/
theorem C2_counterexample :
    (get_condensed_runtimes "[1] runtime error: X").total_count = 1 ∧
    (get_condensed_runtimes "[1] runtime error: X").runtimes = [] ∧
    (1 : Nat) ≠ 0 := by
  have hl : linesOf ("[1] runtime error: X" : String).data =
      [("[1] runtime error: X" : String).data] := by decide
  have h1 : parseAnn ("[1] runtime error: X" : String).data = some "X".data := by decide
  have ha : aggregate [("[1] runtime error: X" : String).data] [] 0 = (1, []) :=
    aggregate_drop h1 rfl
  unfold get_condensed_runtimes condenseLines
  rw [hl, ha]
  refine ⟨rfl, ?_, by decide⟩
  simp [sortRuntimes]

/-- Witness for C2 (amended) at a concrete unterminated announcement. -/
theorem C2_witness :
    aggregate [("[1] runtime error: X" : String).data, ("noise" : String).data] [] 0 = (1, []) :=
  C2_unterminated_announcement _ _ _ _ "X".data (by decide)
    (by
      intro l hl
      rcases List.mem_cons.mp hl with rfl | hl2
      · decide
      · cases hl2)

/-- C8: in the emitted record list, any two consecutive records have
non-increasing counts (sorted by descending count). -/
theorem C8_sorted_desc (s : String) :
    List.Chain' (fun a b => b.2.count ≤ a.2.count) (get_condensed_runtimes s).runtimes := by
  have hp : List.Pairwise
      (fun a b : CondensedRuntimeKey × CondensedRuntimeValue =>
        decide (b.2.count ≤ a.2.count) = true)
      (sortRuntimes (aggregate (linesOf s.data) [] 0).2) := by
    unfold sortRuntimes
    exact List.sorted_mergeSort
      (fun a b c hab hbc => by
        simp only [decide_eq_true_eq] at *
        omega)
      (fun a b => by
        simp only [Bool.or_eq_true, decide_eq_true_eq]
        omega)
      ((aggregate (linesOf s.data) [] 0).2)
  unfold get_condensed_runtimes condenseLines
  exact List.Pairwise.chain' (hp.imp (fun h => by simpa using h))

theorem splitChar_not_mem {sep : Char} :
    ∀ (s : List Char) (part : List Char), part ∈ splitChar sep s → sep ∉ part := by
  intro s
  induction s with
  | nil =>
    intro part hp
    simp [splitChar] at hp
    simp [hp]
  | cons c rest ih =>
    intro part hp
    simp only [splitChar] at hp
    split_ifs at hp with hc
    · rcases List.mem_cons.mp hp with rfl | hp2
      · simp
      · exact ih part hp2
    · rcases hsc : splitChar sep rest with - | ⟨h0, t0⟩
      · exact absurd hsc (splitChar_ne_nil sep rest)
      · rw [hsc] at hp
        rcases List.mem_cons.mp hp with rfl | hp2
        · intro hmem
          rcases List.mem_cons.mp hmem with rfl | hmem2
          · exact hc rfl
          · exact ih h0 (by rw [hsc]; exact List.mem_cons_self _ _) hmem2
        · exact ih part (by rw [hsc]; exact List.mem_cons_of_mem _ hp2)

theorem linesOf_no_nl (s : List Char) : ∀ l ∈ linesOf s, '\n' ∉ l := by
  intro l hl
  unfold linesOf at hl
  rcases List.mem_map.mp hl with ⟨orig, horig, rfl⟩
  have horig2 : orig ∈ splitChar '\n' s := by
    split_ifs at horig with hdrop
    · exact List.dropLast_subset _ horig
    · exact horig
  have hno := splitChar_not_mem s orig horig2
  intro hmem
  unfold stripCr at hmem
  split at hmem
  · exact hno (List.dropLast_subset _ hmem)
  · exact hno hmem

theorem containsSub_iff {pat l : List Char} : containsSub pat l = true ↔ pat <:+: l := by
  induction l with
  | nil =>
    rw [containsSub, listStarts_iff]
    constructor
    · intro h
      rw [List.prefix_nil] at h
      simp [h]
    · intro h
      rw [List.infix_nil] at h
      simp [h]
  | cons c rest ih =>
    rw [containsSub, Bool.or_eq_true, ih, listStarts_iff]
    exact (List.infix_cons_iff).symm

/-- Modelled from the claim text of C9 (refinement reference): replace every
line containing `Cannot read "` by `-censored (string output)`, keep every
other line unchanged. -/
def sanitizeSpec (l : List Char) : List Char :=
  if "Cannot read \"".data <:+: l then "-censored (string output)".data else l

/-- C9: `process_runtimes_log` replaces every line containing the substring
`Cannot read "` entirely with `-censored (string output)` and returns every
other line unchanged. -/
theorem C9_process_runtimes (s : String) :
    process_runtimes_log s = String.mk (joinNl ((linesOf s.data).map sanitizeSpec)) := by
  unfold process_runtimes_log
  congr 1
  congr 1
  apply List.map_congr_left
  intro l hl
  have hnl : '\n' ∉ l := linesOf_no_nl s.data l hl
  unfold sanitize_runtimes_line sanitizeSpec
  by_cases hc : "Cannot read \"".data <:+: l
  · rw [if_pos ⟨hnl, containsSub_iff.mpr hc⟩, if_pos hc]
  · rw [if_neg (fun hand => hc (containsSub_iff.mp hand.2)), if_neg hc]

theorem lookupKey_bump_ne {k k2 : CondensedRuntimeKey}
    {m : List (CondensedRuntimeKey × CondensedRuntimeValue)} (h : k2 ≠ k) :
    lookupKey k (bumpKey k2 m) = lookupKey k m := by
  induction m with
  | nil => rfl
  | cons e rest ih =>
    rcases e with ⟨k3, v3⟩
    unfold bumpKey
    split_ifs with h3
    · subst h3
      unfold lookupKey
      rw [if_neg h, if_neg h]
    · unfold lookupKey
      split_ifs with h4
      · rfl
      · exact ih

theorem lookupKey_bump_eq {k : CondensedRuntimeKey}
    {m : List (CondensedRuntimeKey × CondensedRuntimeValue)} {v : CondensedRuntimeValue}
    (h : lookupKey k m = some v) :
    lookupKey k (bumpKey k m) = some { v with count := v.count + 1 } := by
  induction m with
  | nil => exact absurd h (by simp [lookupKey])
  | cons e rest ih =>
    rcases e with ⟨k3, v3⟩
    unfold lookupKey at h
    unfold bumpKey
    split_ifs at h with h3
    · cases h
      rw [if_pos h3]
      unfold lookupKey
      rw [if_pos h3]
    · rw [if_neg h3]
      unfold lookupKey
      rw [if_neg h3]
      exact ih h

theorem lookupKey_append_some {k : CondensedRuntimeKey}
    {m : List (CondensedRuntimeKey × CondensedRuntimeValue)} {v : CondensedRuntimeValue}
    (m2 : List (CondensedRuntimeKey × CondensedRuntimeValue))
    (h : lookupKey k m = some v) : lookupKey k (m ++ m2) = some v := by
  induction m with
  | nil => exact absurd h (by simp [lookupKey])
  | cons e rest ih =>
    rcases e with ⟨k3, v3⟩
    rw [List.cons_append]
    unfold lookupKey at h ⊢
    split_ifs at h ⊢ with h3
    · exact h
    · exact ih h

theorem aggregate_mono :
    ∀ (n : Nat) (ls : List (List Char)) (m : List (CondensedRuntimeKey × CondensedRuntimeValue))
      (c : Nat) (k : CondensedRuntimeKey) (v : CondensedRuntimeValue),
      ls.length ≤ n → lookupKey k m = some v →
      ∃ v2, lookupKey k (aggregate ls m c).2 = some v2 ∧ v.count ≤ v2.count ∧
        v2.source_file = v.source_file ∧ v2.usr = v.usr ∧ v2.src = v.src ∧
        v2.src_loc = v.src_loc := by
  intro n
  induction n with
  | zero =>
    intro ls m c k v hlen hk
    rw [List.eq_nil_of_length_eq_zero (Nat.le_zero.mp hlen), aggregate_nil]
    exact ⟨v, hk, le_refl _, rfl, rfl, rfl, rfl⟩
  | succ n ih =>
    intro ls m c k v hlen hk
    match ls with
    | [] =>
      rw [aggregate_nil]
      exact ⟨v, hk, le_refl _, rfl, rfl, rfl, rfl⟩
    | l :: rest =>
      have hrest : rest.length ≤ n := by
        simp only [List.length_cons] at hlen
        omega
      rcases hann : parseAnn l with - | msg
      · rw [aggregate_skip hann]
        exact ih rest m c k v hrest hk
      · rcases hfp : findProcName rest with - | ⟨pname, rest2⟩
        · rw [aggregate_drop hann hfp]
          exact ⟨v, hk, le_refl _, rfl, rfl, rfl, rfl⟩
        · have hr2 : rest2.length ≤ n := by
            have := findProcName_len hfp
            omega
          rcases hlk : lookupKey ⟨msg, pname⟩ m with - | v0
          · rcases hf1 : readField "source file".data rest2 with ⟨sf, rest3⟩
            have hr3 : rest3.length ≤ n := by
              have h3 := readField_len "source file".data rest2
              rw [hf1] at h3
              simp only at h3
              omega
            rcases hf2 : readField "usr".data rest3 with ⟨ousr, rest4⟩
            have hr4 : rest4.length ≤ n := by
              have h4 := readField_len "usr".data rest3
              rw [hf2] at h4
              simp only at h4
              omega
            cases ousr with
            | none =>
              rw [aggregate_nousr hann hfp hlk hf1 hf2]
              exact ih rest4 m (c + 1) k v hr4 hk
            | some u =>
              rcases hf3 : readField "src".data rest4 with ⟨osrc, rest5⟩
              have hr5 : rest5.length ≤ n := by
                have h5 := readField_len "src".data rest4
                rw [hf3] at h5
                simp only at h5
                omega
              cases osrc with
              | none =>
                rw [aggregate_nosrc hann hfp hlk hf1 hf2 hf3]
                exact ih rest5 m (c + 1) k v hr5 hk
              | some sv =>
                rcases hf4 : readField "src.loc".data rest5 with ⟨sl, rest6⟩
                have hr6 : rest6.length ≤ n := by
                  have h6 := readField_len "src.loc".data rest5
                  rw [hf4] at h6
                  simp only at h6
                  omega
                rw [aggregate_insert hann hfp hlk hf1 hf2 hf3 hf4]
                exact ih rest6 _ (c + 1) k v hr6 (lookupKey_append_some _ hk)
          · rw [aggregate_dup hann hfp hlk]
            by_cases hkk : (⟨msg, pname⟩ : CondensedRuntimeKey) = k
            · subst hkk
              have hv0 : v0 = v := by
                rw [hlk] at hk
                cases hk
                rfl
              subst hv0
              rcases ih rest2 _ (c + 1) _ { v0 with count := v0.count + 1 } hr2
                  (lookupKey_bump_eq hlk) with ⟨v2, h2, hcnt, hsf, husr, hsrc, hsl⟩
              exact ⟨v2, h2, by simp at hcnt; omega, hsf, husr, hsrc, hsl⟩
            · rcases ih rest2 _ (c + 1) k v hr2 (by rw [lookupKey_bump_ne hkk]; exact hk)
                with ⟨v2, h2, hcnt, hfs⟩
              exact ⟨v2, h2, hcnt, hfs⟩

/-- The aggregation input of the spec example: two blocks with identical
message and proc name but different `usr`/`src`. -/
def twoBlockInput : String :=
  "[1] runtime error: E\n - proc name: P\n -   usr: alice\n -   src: s1\n[2] runtime error: E\n - proc name: P\n -   usr: bob\n -   src: s2"

/-- C7: during an aggregation scan, a stored record's count never
decreases, and its `source_file`, `usr`, `src` and `src_loc` are frozen at
the values captured at the key's first occurrence; in particular the
two-block example with different `usr` values yields one record with
count 2 whose `usr` is the first block's value. -/
theorem C7_frozen_fields :
    (∀ (ls : List (List Char)) (m : List (CondensedRuntimeKey × CondensedRuntimeValue))
        (c : Nat) (k : CondensedRuntimeKey) (v : CondensedRuntimeValue),
      lookupKey k m = some v →
      ∃ v2, lookupKey k (aggregate ls m c).2 = some v2 ∧ v.count ≤ v2.count ∧
        v2.source_file = v.source_file ∧ v2.usr = v.usr ∧ v2.src = v.src ∧
        v2.src_loc = v.src_loc) ∧
    get_condensed_runtimes twoBlockInput =
      ⟨2, [(⟨"E".data, "P".data⟩, ⟨none, "alice".data, "s1".data, none, 2⟩)]⟩ := by
  constructor
  · intro ls m c k v hk
    exact aggregate_mono ls.length ls m c k v (le_refl _) hk
  · have hl : linesOf twoBlockInput.data =
        [("[1] runtime error: E" : String).data, (" - proc name: P" : String).data,
         (" -   usr: alice" : String).data, (" -   src: s1" : String).data,
         ("[2] runtime error: E" : String).data, (" - proc name: P" : String).data,
         (" -   usr: bob" : String).data, (" -   src: s2" : String).data] := by decide
    have h1 : parseAnn ("[1] runtime error: E" : String).data = some "E".data := by decide
    have h2 : findProcName [(" - proc name: P" : String).data,
        (" -   usr: alice" : String).data, (" -   src: s1" : String).data,
        ("[2] runtime error: E" : String).data, (" - proc name: P" : String).data,
        (" -   usr: bob" : String).data, (" -   src: s2" : String).data] =
        some ("P".data, [(" -   usr: alice" : String).data, (" -   src: s1" : String).data,
          ("[2] runtime error: E" : String).data, (" - proc name: P" : String).data,
          (" -   usr: bob" : String).data, (" -   src: s2" : String).data]) := by decide
    have h4 : readField "source file".data [(" -   usr: alice" : String).data,
        (" -   src: s1" : String).data, ("[2] runtime error: E" : String).data,
        (" - proc name: P" : String).data, (" -   usr: bob" : String).data,
        (" -   src: s2" : String).data] =
        (none, [(" -   usr: alice" : String).data, (" -   src: s1" : String).data,
          ("[2] runtime error: E" : String).data, (" - proc name: P" : String).data,
          (" -   usr: bob" : String).data, (" -   src: s2" : String).data]) := by decide
    have h5 : readField "usr".data [(" -   usr: alice" : String).data,
        (" -   src: s1" : String).data, ("[2] runtime error: E" : String).data,
        (" - proc name: P" : String).data, (" -   usr: bob" : String).data,
        (" -   src: s2" : String).data] =
        (some "alice".data, [(" -   src: s1" : String).data,
          ("[2] runtime error: E" : String).data, (" - proc name: P" : String).data,
          (" -   usr: bob" : String).data, (" -   src: s2" : String).data]) := by decide
    have h6 : readField "src".data [(" -   src: s1" : String).data,
        ("[2] runtime error: E" : String).data, (" - proc name: P" : String).data,
        (" -   usr: bob" : String).data, (" -   src: s2" : String).data] =
        (some "s1".data, [("[2] runtime error: E" : String).data,
          (" - proc name: P" : String).data, (" -   usr: bob" : String).data,
          (" -   src: s2" : String).data]) := by decide
    have h7 : readField "src.loc".data [("[2] runtime error: E" : String).data,
        (" - proc name: P" : String).data, (" -   usr: bob" : String).data,
        (" -   src: s2" : String).data] =
        (none, [("[2] runtime error: E" : String).data, (" - proc name: P" : String).data,
          (" -   usr: bob" : String).data, (" -   src: s2" : String).data]) := by decide
    have h1b : parseAnn ("[2] runtime error: E" : String).data = some "E".data := by decide
    have h2b : findProcName [(" - proc name: P" : String).data,
        (" -   usr: bob" : String).data, (" -   src: s2" : String).data] =
        some ("P".data, [(" -   usr: bob" : String).data,
          (" -   src: s2" : String).data]) := by decide
    have hbump : bumpKey ⟨"E".data, "P".data⟩
        [(⟨"E".data, "P".data⟩, ⟨none, "alice".data, "s1".data, none, 1⟩)] =
        [(⟨"E".data, "P".data⟩, ⟨none, "alice".data, "s1".data, none, 2⟩)] := by decide
    unfold get_condensed_runtimes condenseLines
    rw [hl]
    rw [aggregate_insert h1 h2
      (show lookupKey ⟨"E".data, "P".data⟩ [] = none from rfl) h4 h5 h6 h7]
    simp only [List.nil_append]
    rw [aggregate_dup h1b h2b
      (show lookupKey ⟨"E".data, "P".data⟩
        [(⟨"E".data, "P".data⟩, ⟨none, "alice".data, "s1".data, none, 1⟩)] =
        some ⟨none, "alice".data, "s1".data, none, 1⟩ from by decide)]
    rw [hbump]
    rw [aggregate_skip (by decide), aggregate_skip (by decide), aggregate_nil]
    simp [sortRuntimes]

/-- Witness for C7: one pre-existing record survives a scan step with its
fields intact and count non-decreasing. -/
theorem C7_witness :
    ∃ v2, lookupKey ⟨"E".data, "P".data⟩
        (aggregate [("noise" : String).data]
          [(⟨"E".data, "P".data⟩, ⟨none, "u".data, "s".data, none, 1⟩)] 0).2 = some v2 ∧
      (1 : Nat) ≤ v2.count ∧ v2.source_file = none ∧ v2.usr = "u".data ∧
      v2.src = "s".data ∧ v2.src_loc = none :=
  C7_frozen_fields.1 [("noise" : String).data]
    [(⟨"E".data, "P".data⟩, ⟨none, "u".data, "s".data, none, 1⟩)] 0
    ⟨"E".data, "P".data⟩ ⟨none, "u".data, "s".data, none, 1⟩ rfl

/-! ### Well-formed runtime blocks (for C6)

A "complete runtime record" of the spec is modelled by a rendered block:
an announcement line, a proc-name line, and the present detail fields in
their fixed order.  `WfBlock` states the side conditions under which the
rendered lines parse back as intended. -/

structure RtBlock where
  ts : List Char
  msg : List Char
  pname : List Char
  source_file : Option (List Char)
  usr : Option (List Char)
  src : Option (List Char)
  src_loc : Option (List Char)
deriving DecidableEq, Repr

def annLineOf (b : RtBlock) : List Char :=
  '[' :: (b.ts ++ ']' :: ' ' :: ("runtime error: ".data ++ b.msg))

def procLineOf (b : RtBlock) : List Char := " - proc name: ".data ++ b.pname

def fieldLineOf (name v : List Char) : List Char :=
  " -   ".data ++ (name ++ ':' :: ' ' :: v)

def optField (name : List Char) : Option (List Char) → List (List Char)
  | none => []
  | some v => [fieldLineOf name v]

def fieldLinesOf (b : RtBlock) : List (List Char) :=
  optField "source file".data b.source_file ++ (optField "usr".data b.usr ++
    (optField "src".data b.src ++ optField "src.loc".data b.src_loc))

def renderBlock (b : RtBlock) : List (List Char) :=
  annLineOf b :: procLineOf b :: fieldLinesOf b

def renderBlocks (bs : List RtBlock) : List (List Char) :=
  (bs.map renderBlock).join

/-- A detail-field value must be non-empty and newline-free to round-trip. -/
def okVal (v : List Char) : Bool := decide (v ≠ []) && decide ('\n' ∉ v)

def okOpt : Option (List Char) → Bool
  | none => true
  | some v => okVal v

def WfBlock (b : RtBlock) : Prop :=
  b.ts ≠ [] ∧ ']' ∉ b.ts ∧ '\n' ∉ b.ts ∧ '\n' ∉ b.msg ∧
  b.pname ≠ [] ∧ '\n' ∉ b.pname ∧
  okOpt b.source_file = true ∧ okOpt b.usr = true ∧ okOpt b.src = true ∧
  okOpt b.src_loc = true

def blockKey (b : RtBlock) : CondensedRuntimeKey := ⟨b.msg, b.pname⟩

instance (b : RtBlock) : Decidable (WfBlock b) := by
  unfold WfBlock
  infer_instance

theorem stripPre_append (p x : List Char) : stripPre p (p ++ x) = some x := by
  unfold stripPre
  have h : listStarts p (p ++ x) = true := listStarts_iff.mpr ⟨x, rfl⟩
  rw [if_pos h, List.drop_left]

theorem annTail_render (msg : List Char) :
    annTail ("runtime error: ".data ++ msg) = some msg := by
  unfold annTail
  rw [show stripPre "RUNTIME: runtime error: ".data ("runtime error: ".data ++ msg) =
    none from rfl]
  exact stripPre_append _ _

theorem annScan_render (tail : List Char) (cap : List Char)
    (htail : annTail tail = some cap) (hcap : '\n' ∉ cap) :
    ∀ ts : List Char, ts ≠ [] → ']' ∉ ts → '\n' ∉ ts →
      annScan (ts ++ ']' :: ' ' :: tail) = some cap := by
  intro ts
  induction ts with
  | nil =>
    intro h
    exact absurd rfl h
  | cons t ts2 ih =>
    intro _ hbr hnl
    have ht : ¬t = '\n' := fun h => hnl (h ▸ List.mem_cons_self _ _)
    rw [List.cons_append]
    unfold annScan
    rw [if_neg ht]
    cases ts2 with
    | nil =>
      rw [List.nil_append]
      have hls : listStarts [']', ' '] (']' :: ' ' :: tail) = true :=
        listStarts_iff.mpr ⟨tail, rfl⟩
      rw [if_pos hls]
      rw [show ((']' :: ' ' :: tail).drop 2) = tail from rfl, htail]
      rw [show (some cap).filter (fun c => decide ('\n' ∉ c)) = some cap from by
        simp [Option.filter, hcap]]
    | cons u ts3 =>
      have hu : ¬u = ']' := fun h => hbr (h ▸ List.mem_cons_of_mem _ (List.mem_cons_self _ _))
      have hls : listStarts [']', ' '] ((u :: ts3) ++ ']' :: ' ' :: tail) = false := by
        cases hq : listStarts [']', ' '] ((u :: ts3) ++ ']' :: ' ' :: tail) with
        | false => rfl
        | true =>
          rcases listStarts_iff.mp hq with ⟨t2, ht2⟩
          rw [List.cons_append] at ht2
          injection ht2 with e1 e2
          exact absurd e1 (fun h => hu h.symm)
      rw [hls]
      simp only [Bool.false_eq_true, if_false]
      rw [show (none : Option (List Char)).filter (fun c => decide ('\n' ∉ c)) = none from rfl]
      exact ih (by simp) (fun h => hbr (List.mem_cons_of_mem _ h))
        (fun h => hnl (List.mem_cons_of_mem _ h))

theorem parseAnn_annLine (b : RtBlock) (h1 : b.ts ≠ []) (h2 : ']' ∉ b.ts)
    (h3 : '\n' ∉ b.ts) (h4 : '\n' ∉ b.msg) :
    parseAnn (annLineOf b) = some b.msg := by
  unfold parseAnn annLineOf
  dsimp only
  rw [if_pos rfl]
  exact annScan_render _ _ (annTail_render b.msg) h4 b.ts h1 h2 h3

theorem parseProcName_procLine (b : RtBlock) (h1 : b.pname ≠ []) (h2 : '\n' ∉ b.pname) :
    parseProcName (procLineOf b) = some b.pname := by
  unfold parseProcName procLineOf
  rw [stripPre_append]
  dsimp only
  rw [if_pos ⟨h1, h2⟩]

/-- No `:` directly followed by a space anywhere in the list. -/
def noColonSpace : List Char → Bool
  | c :: d :: rest => !(decide (c = ':') && decide (d = ' ')) && noColonSpace (d :: rest)
  | _ => true

theorem fieldScan_gen : ∀ (name v : List Char), name ≠ [] → '\n' ∉ name →
    noColonSpace name.tail = true → v ≠ [] → '\n' ∉ v →
    fieldScan (name ++ ':' :: ' ' :: v) = some (name, v) := by
  intro name
  induction name with
  | nil =>
    intro v h
    exact absurd rfl h
  | cons c name2 ih =>
    intro v _ hnl hcs hv hvnl
    have hc : ¬c = '\n' := fun h => hnl (h ▸ List.mem_cons_self _ _)
    rw [List.cons_append]
    unfold fieldScan
    rw [if_neg hc]
    cases name2 with
    | nil =>
      rw [List.nil_append]
      have hls : listStarts [':', ' '] (':' :: ' ' :: v) = true :=
        listStarts_iff.mpr ⟨v, rfl⟩
      rw [if_pos ⟨hls, hv, hvnl⟩]
      rfl
    | cons d rest2 =>
      have hpair : ¬(listStarts [':', ' '] ((d :: rest2) ++ ':' :: ' ' :: v) = true ∧
          ((d :: rest2) ++ ':' :: ' ' :: v).drop 2 ≠ [] ∧
          '\n' ∉ ((d :: rest2) ++ ':' :: ' ' :: v).drop 2) := by
        rintro ⟨hp, -⟩
        rcases listStarts_iff.mp hp with ⟨t, ht⟩
        cases rest2 with
        | nil =>
          simp only [List.cons_append, List.nil_append] at ht
          injection ht with e1 ht2
          injection ht2 with e2 ht3
          exact absurd e2.symm (by decide)
        | cons e rest3 =>
          simp only [List.cons_append, List.nil_append] at ht
          injection ht with e1 ht2
          injection ht2 with e2 ht3
          simp only [List.tail_cons, noColonSpace, Bool.and_eq_true] at hcs
          rcases hcs with ⟨hpr, -⟩
          simp only [Bool.not_eq_true', Bool.and_eq_false_iff, decide_eq_false_iff_not] at hpr
          rcases hpr with h | h
          · exact h e1.symm
          · exact h e2.symm
      rw [if_neg hpair]
      have htail : noColonSpace (d :: rest2).tail = true := by
        cases rest2 with
        | nil => rfl
        | cons e rest3 =>
          simp only [List.tail_cons, noColonSpace, Bool.and_eq_true] at hcs ⊢
          exact hcs.2
      rw [ih v (by simp) (fun h => hnl (List.mem_cons_of_mem _ h)) htail hv hvnl]

theorem parseField_fieldLine (name v : List Char) (hn : name ≠ []) (hnl : '\n' ∉ name)
    (hcs : noColonSpace name.tail = true) (hv : v ≠ []) (hvnl : '\n' ∉ v) :
    parseField (fieldLineOf name v) = some (name, v) := by
  unfold parseField fieldLineOf
  rw [stripPre_append]
  exact fieldScan_gen name v hn hnl hcs hv hvnl

theorem parseAnn_space (x : List Char) : parseAnn (' ' :: x) = none := rfl

theorem parseField_bracket (x : List Char) : parseField ('[' :: x) = none := rfl

theorem parseProcName_fieldLine (n v : List Char) :
    parseProcName (fieldLineOf n v) = none := rfl

theorem parseAnn_fieldLine (n v : List Char) : parseAnn (fieldLineOf n v) = none := rfl

theorem parseAnn_procLine (b : RtBlock) : parseAnn (procLineOf b) = none := rfl

theorem readField_hit {l name v : List Char} (rest : List (List Char))
    (h : parseField l = some (name, v)) : readField name (l :: rest) = (some v, rest) := by
  unfold readField
  dsimp only
  rw [h]
  dsimp only
  rw [if_pos rfl]

theorem readField_other {l name v expecting : List Char} {rest : List (List Char)}
    (h : parseField l = some (name, v)) (hne : name ≠ expecting) :
    readField expecting (l :: rest) = (none, l :: rest) := by
  unfold readField
  dsimp only
  rw [h]
  dsimp only
  rw [if_neg hne]

theorem readField_noParse {l expecting : List Char} {rest : List (List Char)}
    (h : parseField l = none) : readField expecting (l :: rest) = (none, l :: rest) := by
  unfold readField
  dsimp only
  rw [h]

/-- The first line (if any) is not a detail-field line. -/
def NoFieldHead (ls : List (List Char)) : Prop :=
  ∀ l, ls.head? = some l → parseField l = none

/-- The first line (if any) is not a detail-field line named `expecting`. -/
def HeadNotField (expecting : List Char) (ls : List (List Char)) : Prop :=
  ∀ l, ls.head? = some l →
    (parseField l = none ∨ ∃ nm v, parseField l = some (nm, v) ∧ nm ≠ expecting)

theorem readField_headNot {expecting : List Char} {ls : List (List Char)}
    (h : HeadNotField expecting ls) : readField expecting ls = (none, ls) := by
  cases ls with
  | nil => rfl
  | cons l rest =>
    rcases h l rfl with hn | ⟨nm, v, hs, hne⟩
    · exact readField_noParse hn
    · exact readField_other hs hne

theorem headNot_of_noField {e : List Char} {ls : List (List Char)} (h : NoFieldHead ls) :
    HeadNotField e ls := fun l hl => Or.inl (h l hl)

theorem okVal_iff {v : List Char} : okVal v = true ↔ (v ≠ [] ∧ '\n' ∉ v) := by
  simp [okVal]

theorem parseField_named {name : List Char} (hn : name ≠ []) (hnl : '\n' ∉ name)
    (hcs : noColonSpace name.tail = true) :
    ∀ v, okVal v = true → parseField (fieldLineOf name v) = some (name, v) := fun v hv =>
  parseField_fieldLine name v hn hnl hcs (okVal_iff.mp hv).1 (okVal_iff.mp hv).2

theorem headNot_optField (expecting name : List Char) (o : Option (List Char))
    (ho : okOpt o = true)
    (hpf : ∀ v, okVal v = true → parseField (fieldLineOf name v) = some (name, v))
    (hne : name ≠ expecting) {tail : List (List Char)}
    (htail : HeadNotField expecting tail) :
    HeadNotField expecting (optField name o ++ tail) := by
  cases o with
  | none => simpa [optField] using htail
  | some v =>
    intro l hl
    simp only [optField, List.cons_append, List.head?_cons, Option.some.injEq] at hl
    subst hl
    exact Or.inr ⟨name, v, hpf v ho, hne⟩

theorem readField_optSelf (name : List Char) (o : Option (List Char))
    (tail : List (List Char)) (ho : okOpt o = true)
    (hpf : ∀ v, okVal v = true → parseField (fieldLineOf name v) = some (name, v))
    (htail : HeadNotField name tail) :
    readField name (optField name o ++ tail) = (o, tail) := by
  cases o with
  | none =>
    simp only [optField, List.nil_append]
    exact readField_headNot htail
  | some v =>
    simp only [optField, List.cons_append, List.nil_append]
    exact readField_hit tail (hpf v ho)

theorem aggregate_skipAll {ws rest : List (List Char)}
    {m : List (CondensedRuntimeKey × CondensedRuntimeValue)} {c : Nat}
    (h : ∀ l ∈ ws, parseAnn l = none) :
    aggregate (ws ++ rest) m c = aggregate rest m c := by
  induction ws with
  | nil => rfl
  | cons w ws2 ih =>
    rw [List.cons_append, aggregate_skip (h w (List.mem_cons_self _ _))]
    exact ih (fun l hl => h l (List.mem_cons_of_mem _ hl))

theorem optField_ann_none (name : List Char) (o : Option (List Char)) :
    ∀ l ∈ optField name o, parseAnn l = none := by
  cases o with
  | none => simp [optField]
  | some v =>
    intro l hl
    simp only [optField, List.mem_singleton] at hl
    subst hl
    exact parseAnn_fieldLine _ _

/-- The effect of one rendered block on the record table. -/
def stepMap (b : RtBlock) (m : List (CondensedRuntimeKey × CondensedRuntimeValue)) :
    List (CondensedRuntimeKey × CondensedRuntimeValue) :=
  match lookupKey (blockKey b) m with
  | some _ => bumpKey (blockKey b) m
  | none =>
    match b.usr, b.src with
    | some u, some sv => m ++ [(blockKey b, ⟨b.source_file, u, sv, b.src_loc, 1⟩)]
    | _, _ => m

theorem aggregate_block (b : RtBlock) (rest0 : List (List Char))
    (m : List (CondensedRuntimeKey × CondensedRuntimeValue)) (c : Nat)
    (hb : WfBlock b) (h0 : NoFieldHead rest0) :
    aggregate (renderBlock b ++ rest0) m c = aggregate rest0 (stepMap b m) (c + 1) := by
  obtain ⟨hts, hbr, htsnl, hmsg, hpn, hpnl, hsf, husr0, hsrc0, hsl0⟩ := hb
  have hann : parseAnn (annLineOf b) = some b.msg := parseAnn_annLine b hts hbr htsnl hmsg
  have hpfsf := @parseField_named "source file".data (by decide) (by decide) (by decide)
  have hpfusr := @parseField_named "usr".data (by decide) (by decide) (by decide)
  have hpfsrc := @parseField_named "src".data (by decide) (by decide) (by decide)
  have hpfsl := @parseField_named "src.loc".data (by decide) (by decide) (by decide)
  have hN3 : HeadNotField "src".data (optField "src.loc".data b.src_loc ++ rest0) :=
    headNot_optField _ _ _ hsl0 hpfsl (by decide) (headNot_of_noField h0)
  have hN2 : HeadNotField "usr".data (optField "src".data b.src ++
      (optField "src.loc".data b.src_loc ++ rest0)) :=
    headNot_optField _ _ _ hsrc0 hpfsrc (by decide)
      (headNot_optField _ _ _ hsl0 hpfsl (by decide) (headNot_of_noField h0))
  have hN1 : HeadNotField "source file".data (optField "usr".data b.usr ++
      (optField "src".data b.src ++ (optField "src.loc".data b.src_loc ++ rest0))) :=
    headNot_optField _ _ _ husr0 hpfusr (by decide)
      (headNot_optField _ _ _ hsrc0 hpfsrc (by decide)
        (headNot_optField _ _ _ hsl0 hpfsl (by decide) (headNot_of_noField h0)))
  have hR1 : readField "source file".data (fieldLinesOf b ++ rest0) =
      (b.source_file, optField "usr".data b.usr ++ (optField "src".data b.src ++
        (optField "src.loc".data b.src_loc ++ rest0))) := by
    rw [show fieldLinesOf b ++ rest0 = optField "source file".data b.source_file ++
      (optField "usr".data b.usr ++ (optField "src".data b.src ++
        (optField "src.loc".data b.src_loc ++ rest0))) from by
      simp [fieldLinesOf, List.append_assoc]]
    exact readField_optSelf _ _ _ hsf hpfsf hN1
  have hR2 : readField "usr".data (optField "usr".data b.usr ++ (optField "src".data b.src ++
      (optField "src.loc".data b.src_loc ++ rest0))) =
      (b.usr, optField "src".data b.src ++ (optField "src.loc".data b.src_loc ++ rest0)) :=
    readField_optSelf _ _ _ husr0 hpfusr hN2
  have hR3 : readField "src".data (optField "src".data b.src ++
      (optField "src.loc".data b.src_loc ++ rest0)) =
      (b.src, optField "src.loc".data b.src_loc ++ rest0) :=
    readField_optSelf _ _ _ hsrc0 hpfsrc hN3
  have hR4 : readField "src.loc".data (optField "src.loc".data b.src_loc ++ rest0) =
      (b.src_loc, rest0) :=
    readField_optSelf _ _ _ hsl0 hpfsl (headNot_of_noField h0)
  have hrb : renderBlock b ++ rest0 =
      annLineOf b :: procLineOf b :: (fieldLinesOf b ++ rest0) := by
    simp [renderBlock]
  have hfp : findProcName (procLineOf b :: (fieldLinesOf b ++ rest0)) =
      some (b.pname, fieldLinesOf b ++ rest0) := by
    unfold findProcName
    rw [parseProcName_procLine b hpn hpnl]
  have hskipFields : ∀ l ∈ fieldLinesOf b, parseAnn l = none := by
    intro l hl
    simp only [fieldLinesOf, List.mem_append] at hl
    rcases hl with h | h | h | h
    · exact optField_ann_none _ _ l h
    · exact optField_ann_none _ _ l h
    · exact optField_ann_none _ _ l h
    · exact optField_ann_none _ _ l h
  rw [hrb]
  rcases hlk : lookupKey (blockKey b) m with - | v0
  · -- new key
    rcases husr : b.usr with - | u
    · rw [husr] at hR1 hR2
      rw [show optField "usr".data none = [] from rfl] at hR1 hR2
      simp only [List.nil_append] at hR1 hR2
      rw [aggregate_nousr hann hfp hlk hR1 hR2]
      rw [show optField "src".data b.src ++ (optField "src.loc".data b.src_loc ++ rest0) =
        (optField "src".data b.src ++ optField "src.loc".data b.src_loc) ++ rest0 from by
        simp [List.append_assoc]]
      rw [aggregate_skipAll (by
        intro l hl
        simp only [List.mem_append] at hl
        rcases hl with h | h
        · exact optField_ann_none _ _ l h
        · exact optField_ann_none _ _ l h)]
      simp only [blockKey] at hlk
      simp only [stepMap, blockKey, hlk, husr]
    · rw [husr] at hR1 hR2
      rcases hsrc : b.src with - | sv
      · rw [hsrc] at hR1 hR2 hR3
        rw [show optField "src".data none = [] from rfl] at hR1 hR2 hR3
        simp only [List.nil_append] at hR1 hR2 hR3
        rw [aggregate_nosrc hann hfp hlk hR1 hR2 hR3]
        rw [aggregate_skipAll (optField_ann_none _ _)]
        simp only [blockKey] at hlk
        simp only [stepMap, blockKey, hlk, husr, hsrc]
      · rw [hsrc] at hR1 hR2 hR3
        rw [aggregate_insert hann hfp hlk hR1 hR2 hR3 hR4]
        simp only [blockKey] at hlk
        simp only [stepMap, blockKey, hlk, husr, hsrc]
  · -- duplicate key: bump and skim the unread field lines
    rw [aggregate_dup hann hfp hlk]
    rw [aggregate_skipAll hskipFields]
    simp only [blockKey] at hlk
    simp only [stepMap, blockKey, hlk]

theorem noFieldHead_renderBlocks (bs : List RtBlock) : NoFieldHead (renderBlocks bs) := by
  cases bs with
  | nil => intro l hl; cases hl
  | cons b bs2 =>
    intro l hl
    simp only [renderBlocks, List.map_cons, List.flatten_cons, renderBlock, List.cons_append,
      List.head?_cons, Option.some.injEq] at hl
    subst hl
    exact parseField_bracket _

theorem aggregate_blocks : ∀ (bs : List RtBlock)
    (m : List (CondensedRuntimeKey × CondensedRuntimeValue)) (c : Nat),
    (∀ b ∈ bs, WfBlock b) →
    aggregate (renderBlocks bs) m c =
      (c + bs.length, bs.foldl (fun m2 b => stepMap b m2) m) := by
  intro bs
  induction bs with
  | nil =>
    intro m c _
    simp [renderBlocks, aggregate_nil]
  | cons b bs2 ih =>
    intro m c hwf
    have hrb : renderBlocks (b :: bs2) = renderBlock b ++ renderBlocks bs2 := by
      simp [renderBlocks]
    rw [hrb, aggregate_block b _ m c (hwf b (List.mem_cons_self _ _))
      (noFieldHead_renderBlocks bs2)]
    rw [ih _ (c + 1) (fun b2 hb2 => hwf b2 (List.mem_cons_of_mem _ hb2))]
    simp only [List.foldl_cons, List.length_cons]
    congr 1
    omega

theorem bumpKey_keys (k : CondensedRuntimeKey)
    (m : List (CondensedRuntimeKey × CondensedRuntimeValue)) :
    (bumpKey k m).map Prod.fst = m.map Prod.fst := by
  induction m with
  | nil => rfl
  | cons e rest ih =>
    rcases e with ⟨k2, v⟩
    unfold bumpKey
    split_ifs with h2
    · simp
    · simp only [List.map_cons]
      rw [ih]

theorem lookupKey_none_iff {k : CondensedRuntimeKey}
    {m : List (CondensedRuntimeKey × CondensedRuntimeValue)} :
    lookupKey k m = none ↔ k ∉ m.map Prod.fst := by
  induction m with
  | nil => simp [lookupKey]
  | cons e rest ih =>
    rcases e with ⟨k2, v⟩
    unfold lookupKey
    split_ifs with h2
    · subst h2
      simp
    · simp only [List.map_cons, List.mem_cons, not_or]
      constructor
      · intro hn
        exact ⟨fun he => h2 he.symm, ih.mp hn⟩
      · rintro ⟨h1, h3⟩
        exact ih.mpr h3

theorem foldl_step_invariant :
    ∀ (bs : List RtBlock) (m : List (CondensedRuntimeKey × CondensedRuntimeValue)),
      (m.map Prod.fst).Nodup →
      ((bs.foldl (fun m2 b => stepMap b m2) m).map Prod.fst).Nodup ∧
      (∀ k, k ∈ (bs.foldl (fun m2 b => stepMap b m2) m).map Prod.fst →
        k ∈ m.map Prod.fst ∨ k ∈ bs.map blockKey) := by
  intro bs
  induction bs with
  | nil =>
    intro m h
    exact ⟨h, fun k hk => Or.inl hk⟩
  | cons b bs2 ih =>
    intro m hnd
    have hkeys : ∀ k, k ∈ (stepMap b m).map Prod.fst → k ∈ m.map Prod.fst ∨ k = blockKey b := by
      intro k hk
      unfold stepMap at hk
      split at hk
      · exact Or.inl (by rwa [bumpKey_keys] at hk)
      · split at hk
        · rw [List.map_append] at hk
          rcases List.mem_append.mp hk with h | h
          · exact Or.inl h
          · simp only [List.map_cons, List.map_nil, List.mem_singleton] at h
            exact Or.inr h
        · exact Or.inl hk
    have hnd2 : ((stepMap b m).map Prod.fst).Nodup := by
      unfold stepMap
      split
      · rwa [bumpKey_keys]
      · next hlk =>
        split
        · rw [List.map_append]
          simp only [List.map_cons, List.map_nil]
          refine List.Nodup.append hnd (List.nodup_singleton _) ?_
          intro a ha hb
          simp only [List.mem_singleton] at hb
          subst hb
          exact (lookupKey_none_iff.mp hlk) ha
        · exact hnd
    rcases ih (stepMap b m) hnd2 with ⟨hndF, hsub⟩
    refine ⟨hndF, fun k hk => ?_⟩
    rcases hsub k hk with h | h
    · rcases hkeys k h with h2 | h2
      · exact Or.inl h2
      · exact Or.inr (by simp [h2])
    · exact Or.inr (List.mem_cons_of_mem _ h)

/-- Every key's first occurrence among the blocks carries both required
fields (`seen` accumulates the keys of already-processed blocks). -/
def firstCompleteAux (seen : List CondensedRuntimeKey) : List RtBlock → Bool
  | [] => true
  | b :: rest =>
    (decide (blockKey b ∈ seen) || (b.usr.isSome && b.src.isSome)) &&
      firstCompleteAux (blockKey b :: seen) rest

theorem foldl_step_complete :
    ∀ (bs : List RtBlock) (seen : List CondensedRuntimeKey)
      (m : List (CondensedRuntimeKey × CondensedRuntimeValue)),
      (∀ k, k ∈ m.map Prod.fst ↔ k ∈ seen) →
      firstCompleteAux seen bs = true →
      ∀ k, k ∈ (bs.foldl (fun m2 b => stepMap b m2) m).map Prod.fst ↔
        (k ∈ seen ∨ k ∈ bs.map blockKey) := by
  intro bs
  induction bs with
  | nil =>
    intro seen m hiff _ k
    simp [hiff k]
  | cons b bs2 ih =>
    intro seen m hiff hfc k
    simp only [firstCompleteAux, Bool.and_eq_true] at hfc
    rcases hfc with ⟨hhead, hrec⟩
    have hiff2 : ∀ k2, k2 ∈ (stepMap b m).map Prod.fst ↔ k2 ∈ (blockKey b :: seen) := by
      intro k2
      unfold stepMap
      rcases hlk : lookupKey (blockKey b) m with - | v0
      · have hnotin : blockKey b ∉ seen := fun hin =>
          (lookupKey_none_iff.mp hlk) ((hiff _).mpr hin)
        have husr_src : b.usr.isSome = true ∧ b.src.isSome = true := by
          simp only [Bool.or_eq_true, decide_eq_true_eq, Bool.and_eq_true] at hhead
          rcases hhead with h | h
          · exact absurd h hnotin
          · exact h
        rcases Option.isSome_iff_exists.mp husr_src.1 with ⟨u, hu⟩
        rcases Option.isSome_iff_exists.mp husr_src.2 with ⟨sv, hsv⟩
        simp only [hlk, hu, hsv]
        rw [List.map_append]
        simp only [List.map_cons, List.map_nil, List.mem_append, List.mem_singleton,
          List.mem_cons]
        rw [hiff k2]
        tauto
      · have hin : blockKey b ∈ seen := by
          refine (hiff _).mp ?_
          by_contra hno
          rw [← lookupKey_none_iff] at hno
          rw [hno] at hlk
          cases hlk
        simp only [hlk, bumpKey_keys, List.mem_cons]
        rw [hiff k2]
        constructor
        · intro h
          exact Or.inr h
        · rintro (rfl | h)
          · exact hin
          · exact h
    have hrest := ih (blockKey b :: seen) (stepMap b m) hiff2 hrec k
    simp only [List.foldl_cons]
    rw [hrest]
    simp only [List.mem_cons, List.map_cons]
    tauto

/-- C6: for a well-formed input of N rendered runtime blocks with K
distinct (message, proc_name) keys, the report has `total_count = N` and at
most K records, with equality when every key's first occurrence carries its
required `usr` and `src` fields. -/
theorem C6_report_counts (bs : List RtBlock) (hwf : ∀ b ∈ bs, WfBlock b) :
    (condenseLines (renderBlocks bs)).total_count = bs.length ∧
    (condenseLines (renderBlocks bs)).runtimes.length ≤ ((bs.map blockKey).dedup).length ∧
    (firstCompleteAux [] bs = true →
      (condenseLines (renderBlocks bs)).runtimes.length =
        ((bs.map blockKey).dedup).length) := by
  have hagg := aggregate_blocks bs [] 0 hwf
  unfold condenseLines
  rw [hagg]
  dsimp only
  have hlen : (sortRuntimes (bs.foldl (fun m2 b => stepMap b m2) [])).length =
      (bs.foldl (fun m2 b => stepMap b m2) []).length := by
    unfold sortRuntimes
    exact List.length_mergeSort _
  rcases foldl_step_invariant bs [] (by simp) with ⟨hnd, hsub⟩
  have hflen : (bs.foldl (fun m2 b => stepMap b m2) []).length =
      ((bs.foldl (fun m2 b => stepMap b m2) []).map Prod.fst).length := by
    rw [List.length_map]
  refine ⟨by omega, ?_, ?_⟩
  · rw [hlen, hflen]
    have hsub2 : ∀ k ∈ (bs.foldl (fun m2 b => stepMap b m2) []).map Prod.fst,
        k ∈ bs.map blockKey := by
      intro k hk
      rcases hsub k hk with h | h
      · simp at h
      · exact h
    calc ((bs.foldl (fun m2 b => stepMap b m2) []).map Prod.fst).length
        = ((bs.foldl (fun m2 b => stepMap b m2) []).map Prod.fst).toFinset.card :=
          (List.toFinset_card_of_nodup hnd).symm
      _ ≤ (bs.map blockKey).toFinset.card :=
          Finset.card_le_card
            (fun x hx => List.mem_toFinset.mpr (hsub2 x (List.mem_toFinset.mp hx)))
      _ = (bs.map blockKey).dedup.length := List.card_toFinset _
  · intro hfc
    have hiff := foldl_step_complete bs [] [] (by simp) hfc
    rw [hlen, hflen]
    have hset : ((bs.foldl (fun m2 b => stepMap b m2) []).map Prod.fst).toFinset =
        (bs.map blockKey).toFinset := by
      ext x
      simp only [List.mem_toFinset]
      rw [hiff x]
      simp
    calc ((bs.foldl (fun m2 b => stepMap b m2) []).map Prod.fst).length
        = ((bs.foldl (fun m2 b => stepMap b m2) []).map Prod.fst).toFinset.card :=
          (List.toFinset_card_of_nodup hnd).symm
      _ = (bs.map blockKey).toFinset.card := by rw [hset]
      _ = (bs.map blockKey).dedup.length := List.card_toFinset _

/-- The three-block input used as the C6 witness: two blocks of one key,
one of another. -/
def c6Blocks : List RtBlock :=
  [⟨"1".data, "E".data, "P".data, none, some "u1".data, some "s1".data, none⟩,
   ⟨"2".data, "E".data, "P".data, none, some "u2".data, some "s2".data, none⟩,
   ⟨"3".data, "F".data, "Q".data, none, some "u3".data, some "s3".data, none⟩]

/-- Witness for C6 at a concrete three-block input. -/
theorem C6_witness :
    (condenseLines (renderBlocks c6Blocks)).total_count = c6Blocks.length ∧
    (condenseLines (renderBlocks c6Blocks)).runtimes.length ≤
      ((c6Blocks.map blockKey).dedup).length ∧
    (firstCompleteAux [] c6Blocks = true →
      (condenseLines (renderBlocks c6Blocks)).runtimes.length =
        ((c6Blocks.map blockKey).dedup).length) :=
  C6_report_counts c6Blocks (by decide)

end TgLog
